import Mathlib

/-!
# Verification of the cdn-static-database core

A shallow embedding of the repository sources `src/db.ts` and
`src/ngram.indice.ts` (plus the compiled variant shipped with the package),
together with proofs and refutations of the frozen specification claims.

JavaScript `Map` objects are embedded as insertion-ordered association lists
(`List (κ × ν)`); machine numbers that only ever hold integers are embedded as
`Int`/`Nat`, and the one fractional computation (the automatic match
threshold `tokens * 40 / 100`) is carried out in `ℚ` exactly as JS floating
point would for the small values involved.
-/

namespace JsMap

variable {κ ν : Type} [DecidableEq κ]

/-- `Map.prototype.get` on an insertion-ordered association list. -/
def get : List (κ × ν) → κ → Option ν
  | [], _ => none
  | e :: es, k => if e.1 = k then some e.2 else get es k

/-- `Map.prototype.set`: replaces the value in place if the key is present
(keeping its insertion position), otherwise appends the entry.  (A JS map
holds each key at most once, so replacing the first occurrence is exact.) -/
def set : List (κ × ν) → κ → ν → List (κ × ν)
  | [], k, v => [(k, v)]
  | e :: es, k, v => if e.1 = k then (k, v) :: es else e :: set es k v

/-- `Map.prototype.delete`. -/
def del : List (κ × ν) → κ → List (κ × ν)
  | [], _ => []
  | e :: es, k => if e.1 = k then del es k else e :: del es k

/-- `new Map(pairs)`: inserts the pairs in order (later duplicates overwrite). -/
def ofPairs (l : List (κ × ν)) : List (κ × ν) :=
  l.foldl (fun m e => set m e.1 e.2) []

/-- The keys of the map, in insertion order. -/
def keys (m : List (κ × ν)) : List κ := m.map (·.1)

/-- A well-formed JS map never holds two entries with the same key. -/
def KeysNodup (m : List (κ × ν)) : Prop := (m.map (·.1)).Nodup

/-- Lookup with a default, mirroring `m.get(k) || d` for non-falsy stored values. -/
def getD (m : List (κ × ν)) (k : κ) (d : ν) : ν := (get m k).getD d

end JsMap

namespace NgramIndice

/-- Tokenizer hooks and lazy-load descriptor are function-valued fields of the
options object in the source; the loader is embedded as the (deterministic)
outcome the supplied promise would settle to. -/
inductive NgErr where
  | notLoaded   -- `Error("option load doesn't implemented")`
  | loadFailed  -- rejection of the user-supplied load function
  | typeError   -- e.g. calling `.get` on a value that is not a Map
  deriving DecidableEq, Repr

/-- The `IOptions` record of `ngram.indice.ts` (lines 5-15).  `load` is the
deferred-load descriptor: `none` when absent, otherwise the result the
returned promise settles to (`Except.error` models rejection). -/
structure NgOptions (K : Type) where
  id : String
  gramLen : Nat
  actuationLimit : ℚ
  toLowcase : Bool
  actuationLimitAuto : Bool
  isLoaded : Bool
  preTokenizr : Option (String → String) := none
  postTokenizr : Option (String → List String → List String) := none
  load : Option (Except NgErr (List (String × List K))) := none

/-- JS `String.prototype.toLowerCase` on the ASCII fragment, implemented over
the character list so that it evaluates by kernel reduction. -/
def jsToLower (s : String) : String := String.mk (s.toList.map Char.toLower)

/-- Splitting a character list at every occurrence of `c` (JS
`split(" ")` semantics: consecutive separators yield empty pieces). -/
def splitCharAux (c : Char) : List Char → List Char → List (List Char)
  | [], acc => [acc.reverse]
  | x :: xs, acc =>
    if x = c then acc.reverse :: splitCharAux c xs []
    else splitCharAux c xs (x :: acc)

/-- JS `String.prototype.split(sep)` for a single-character separator. -/
def jsSplit (s : String) (c : Char) : List String :=
  (splitCharAux c s.toList []).map String.mk

/-- All contiguous substrings of length `n` of a word, as produced by the
`n-gram` npm package: a word shorter than `n` yields no tokens.  (The package
requires `n ≥ 1`; the `n = 0` case below is inert junk.) -/
def grams (n : Nat) (s : String) : List String :=
  if n = 0 ∨ s.length < n then []
  else (List.range (s.length - n + 1)).map (fun i => String.mk ((s.toList.drop i).take n))

/-- `tokenizr` (ngram.indice.ts lines 76-83): optional pre-hook, optional
lower-casing, split on single spaces, n-grams per word, optional post-hook. -/
def tokenizr {K : Type} (o : NgOptions K) (value : String) : List String :=
  let v := match o.preTokenizr with
    | some f => f value
    | none => value
  let v := if o.toLowcase then jsToLower v else v
  let tokens := (jsSplit v ' ').flatMap (grams o.gramLen)
  match o.postTokenizr with
  | some f => f value tokens
  | none => tokens

/-- A value passed to `add`/`find` is one text or a sequence of texts. -/
def tokenizrMulti {K : Type} (o : NgOptions K) : String ⊕ List String → List String
  | .inl v => tokenizr o v
  | .inr vs => vs.flatMap (tokenizr o)

variable {K : Type} [DecidableEq K]

/-- Mutable state of an `NgramIndice` whose posting store is a real `Map`
(the only shape produced by the constructor, `add` and `load`). -/
structure NgState (K : Type) where
  indices : List (String × List K)
  options : NgOptions K

/-- `add(key, value)` (lines 56-68): append `key` to the posting list of every
token of `value`, in token order. -/
def add (s : NgState K) (key : K) (value : String ⊕ List String) : NgState K :=
  let tokens := tokenizrMulti s.options value
  let newIndices :=
    tokens.foldl (fun m token => JsMap.set m token (JsMap.getD m token [] ++ [key])) s.indices
  { s with indices := newIndices }

/-- The pure core of `preFilter` (lines 98-111): accumulate one count per
posting-list occurrence of a key under any query token. -/
def preFilterPure (indices : List (String × List K)) (tokens : List String) :
    List (K × Nat) :=
  tokens.foldl
    (fun acc token =>
      match JsMap.get indices token with
      | none => acc
      | some ids => ids.foldl (fun acc id => JsMap.set acc id (JsMap.getD acc id 0 + 1)) acc)
    []

/-- `getLimit` (lines 128-130): the effective match threshold, computed in
exact arithmetic (`tokensLength * 40 / 100`). -/
def getLimit (autoLimit : Bool) (tokensLength : Nat) (limit : ℚ) : ℚ :=
  if autoLimit then (tokensLength : ℚ) * 40 / 100 else limit

/-- `postFilter` (lines 120-127): keys whose accumulated count reaches the
threshold, in map insertion order. -/
def postFilter (o : NgOptions K) (countResults : List (K × Nat)) (tokens : List String) :
    List K :=
  (countResults.filter (fun e => getLimit o.actuationLimitAuto tokens.length o.actuationLimit ≤ (e.2 : ℚ))).map (·.1)

/-- `load` (lines 84-94), instrumented with the number of loader invocations.
On rejection the exception propagates before any field is assigned, so the
state is unchanged (`Except.error`). -/
def load (s : NgState K) : Except NgErr (NgState K) × Nat :=
  if s.options.isLoaded then (.ok s, 0)
  else
    match s.options.load with
    | some (.ok data) =>
        (.ok { s with indices := JsMap.ofPairs data,
                      options := { s.options with isLoaded := true } }, 1)
    | some (.error e) => (.error e, 1)
    | none => (.error .notLoaded, 0)

/-- `preFilter` including the lazy load (lines 98-111), instrumented with the
loader invocation count. -/
def preFilter (s : NgState K) (tokens : List String) :
    Except NgErr (NgState K × List (K × Nat)) × Nat :=
  match load s with
  | (.ok s', n) => (.ok (s', preFilterPure s'.indices tokens), n)
  | (.error e, n) => (.error e, n)

/-- `find` (lines 112-119): tokenize, pre-filter, post-filter. -/
def find (s : NgState K) (value : Option (String ⊕ List String)) :
    Except NgErr (NgState K × List K) × Nat :=
  let tokens := match value with
    | none => []
    | some v => tokenizrMulti s.options v
  match preFilter s tokens with
  | (.ok (s', pre), n) => (.ok (s', postFilter s'.options pre tokens), n)
  | (.error e, n) => (.error e, n)

/-- One step of the merge in `findAll` (lines 179-185): add every entry of one
shard result into the running sum (`sum.set(key, count + value)`). -/
def combineInto (sum w : List (K × Nat)) : List (K × Nat) :=
  w.foldl (fun acc e => JsMap.set acc e.1 (JsMap.getD acc e.1 0 + e.2)) sum

/-- `findAll` (lines 176-187), with the per-shard `preFilter` results supplied
as loaded posting maps: weights are summed across all shards and the single
threshold rule is applied to the combined weights. -/
def findAll (o : NgOptions K) (shards : List (List (String × List K)))
    (value : String ⊕ List String) : List K :=
  let tokens := tokenizrMulti o value
  let list := shards.map (fun sh => preFilterPure sh tokens)
  let combineWeights := list.foldl combineInto []
  postFilter o combineWeights tokens

/-- The merge of one finished shard's weight map into the running
`combineWeights` (`combineWeights.set(key, weight + value)`, lines 219-223). -/
def mergeWeights (cw res : List (K × Nat)) : List (K × Nat) :=
  res.foldl (fun acc e => JsMap.set acc e.1 (e.2 + JsMap.getD acc e.1 0)) cw

/-- One completion of `cursorAll`'s race loop (lines 215-232): merge the
finished shard's weight map into the running `combineWeights`, compute the
keys now at/above threshold, delete every one of them from the running map,
and keep the JS-truthy ones (reversed) as the batch.  `truthy` is JS
truthiness of the key type `T`
(`filter(r => { combineWeights.delete(r); return r; })`). -/
def cursorStep (o : NgOptions K) (truthy : K → Bool) (tokens : List String)
    (cw res : List (K × Nat)) : List K × List (K × Nat) :=
  let cw1 := mergeWeights cw res
  let em := postFilter o cw1 tokens
  let cw2 := em.foldl JsMap.del cw1
  ((em.filter truthy).reverse, cw2)

/-- The sequence of batches a single `cursorAll` invocation emits, given the
per-shard `preFilter` weight maps in shard *completion* order.  The
promise-race loop (lines 210-239) replaces each completed promise with a
never-resolving one, so every shard is merged exactly once and a run is fully
described by this completion permutation; `next()` loops past completions
whose batch would be empty. -/
def cursorAllBatches (o : NgOptions K) (truthy : K → Bool) (tokens : List String) :
    List (List (K × Nat)) → List (K × Nat) → List (List K)
  | [], _ => []
  | res :: rest, cw =>
    let p := cursorStep o truthy tokens cw res
    if p.1.isEmpty then cursorAllBatches o truthy tokens rest p.2
    else p.1 :: cursorAllBatches o truthy tokens rest p.2

/-- Splitting a posting list into consecutive `splice(0, c)` slices, as the
`while` loop of `spread` does once a token's list overflows the budget.
(`c = 0` would make the source loop forever; the claims assume `c ≥ 1`.) -/
def chunksOf (c : Nat) (l : List K) : List (List K) :=
  match l with
  | [] => []
  | x :: xs =>
    if _h : c = 0 then [x :: xs]
    else (x :: xs).take c :: chunksOf c ((x :: xs).drop c)
termination_by l.length
decreasing_by simp [List.length_drop]; omega

/-- Insertion of a string into a sorted list, for the `keys` getter. -/
def insertSorted (a : String) : List String → List String
  | [] => [a]
  | b :: bs => if a < b then a :: b :: bs else b :: insertSorted a bs

/-- The `keys` getter (lines 22-31): all tokens, sorted by the standard
lexicographic comparator `(a, b) => a === b ? 0 : a < b ? -1 : 1`. -/
def sortKeys (l : List String) : List String := l.foldr insertSorted []

/-- One `this.keys.forEach` step of `spread` (TS source lines 151-167); the
state is (shards emitted so far, entry count of the open shard, open shard). -/
def spreadStep (csize : Nat)
    (st : List (List (String × List K)) × Nat × List (String × List K))
    (e : String × List K) :
    List (List (String × List K)) × Nat × List (String × List K) :=
  let (shards, size, map) := st
  let l := e.2
  if size + l.length ≤ csize then
    (shards, size + l.length, JsMap.set map e.1 l)
  else
    let first := l.take (csize - size)
    let rest := l.drop (csize - size)
    (shards ++ [JsMap.set map e.1 first] ++ (chunksOf csize rest).map (fun p => [(e.1, p)]),
     0, [])

/-- The trailing `if (size != 0) result.push(...)` of `spread`. -/
def spreadFinish (st : List (List (String × List K)) × Nat × List (String × List K)) :
    List (List (String × List K)) :=
  if st.2.1 ≠ 0 then st.1 ++ [st.2.2] else st.1

/-- The sorted `(token, copied posting list)` sequence `spread` walks
(`this.keys.forEach(key => ... [...this.indices.get(key)!])`). -/
def sortedEntries (s : NgState K) : List (String × List K) :=
  (sortKeys (JsMap.keys s.indices)).map (fun t => (t, JsMap.getD s.indices t []))

/-- `spread(chunkSize)` (TS source lines 146-175), returning the posting maps
of the produced shards.  (Each shard is wrapped by `deserialize(map, options)`
in the source; the options are the parent's minus `id`, which is re-assigned
from a global counter and is immaterial to the claims.) -/
def spread (s : NgState K) (csize : Nat) : List (List (String × List K)) :=
  spreadFinish ((sortedEntries s).foldl (spreadStep csize) ([], 0, []))

/-- The posting list a shard map associates with a token (absent = empty). -/
def lookD (m : List (String × List K)) (t : String) : List K :=
  (JsMap.get m t).getD []

/-- The union (in shard order) of the shards' posting lists for one token. -/
def perTok (shards : List (List (String × List K))) (t : String) : List K :=
  (shards.map (fun sh => lookD sh t)).flatten

/-- The number of posting-list entries a shard holds. -/
def entryLen (sh : List (String × List K)) : Nat :=
  (sh.map (fun e => e.2.length)).sum

/-- The posting store of a deserialized index: `deserialize` assigns whatever
`data` value it was given to `this.indices`, so the store is a `Map` only when
a `Map` was passed; `serialize()` produces a plain array of entries. -/
inductive Store (K : Type) where
  | map (m : List (String × List K))
  | arr (a : List (String × List K))

/-- The entry list underlying either store shape (`[...this.indices]`). -/
def storeEntries : Store K → List (String × List K)
  | .map m => m
  | .arr a => a

/-- An `NgramIndice` whose posting store may be either shape. -/
structure DynState (K : Type) where
  store : Store K
  options : NgOptions K

/-- `serializeOptions` (lines 69-72): the options object minus the `load`
descriptor. -/
def serializeOptions (o : NgOptions K) : NgOptions K := { o with load := none }

/-- `serialize` (lines 132-134): the bulk entry data — a JS *array* of
`[token, keys]` pairs — paired with the load-free options. -/
def serialize (s : DynState K) : Store K × NgOptions K :=
  (.arr (storeEntries s.store), serializeOptions s.options)

/-- `deserialize(data, options)` (lines 135-145), two-argument form: build a
fresh index from `options` and, when `data` is truthy (any array or map, even
empty), assign it verbatim to `this.indices`. -/
def deserialize (data : Option (Store K)) (o : NgOptions K) : DynState K :=
  { store := match data with
      | some st => st
      | none => .map [],
    options := o }

/-- `this.indices.get(token)` on a dynamic store: an array has no `get`
method, so the call throws a `TypeError`. -/
def getIndicesDyn (st : Store K) (token : String) : Except NgErr (Option (List K)) :=
  match st with
  | .map m => .ok (JsMap.get m token)
  | .arr _ => .error .typeError

/-- `load` on a dynamic-store index (uninstrumented). -/
def loadDyn (s : DynState K) : Except NgErr (DynState K) :=
  if s.options.isLoaded then .ok s
  else
    match s.options.load with
    | some (.ok data) =>
        .ok { s with store := .map (JsMap.ofPairs data),
                     options := { s.options with isLoaded := true } }
    | some (.error e) => .error e
    | none => .error .notLoaded

/-- `preFilter`'s token loop over a dynamic store: the first `get` on an
array store throws. -/
def preFilterPureDyn (st : Store K) (tokens : List String) :
    Except NgErr (List (K × Nat)) :=
  tokens.foldlM
    (fun acc token => do
      let idsOpt ← getIndicesDyn st token
      pure (match idsOpt with
        | none => acc
        | some ids => ids.foldl (fun acc id => JsMap.set acc id (JsMap.getD acc id 0 + 1)) acc))
    []

/-- The total weight a single weight map assigns to key `k` (the sum over
all of its entries for `k`). -/
def entW (w : List (K × Nat)) (k : K) : Nat :=
  ((w.filter (fun e => e.1 = k)).map (·.2)).sum

/-- The combined weight the shard results `ws` assign to key `k`. -/
def wTotal (ws : List (List (K × Nat))) (k : K) : Nat :=
  (ws.map (fun w => entW w k)).sum

/-- Whether key `k` occurs at all in one of the shard results. -/
def keyInWs (ws : List (List (K × Nat))) (k : K) : Prop :=
  ∃ w ∈ ws, ∃ e ∈ w, e.1 = k

/-- `find` on a dynamic-store index (lines 112-119). -/
def findDyn (s : DynState K) (value : Option (String ⊕ List String)) :
    Except NgErr (DynState K × List K) := do
  let tokens := match value with
    | none => []
    | some v => tokenizrMulti s.options v
  let s' ← loadDyn s
  let pre ← preFilterPureDyn s'.store tokens
  pure (s', postFilter s'.options pre tokens)

end NgramIndice

namespace Db

/-- A JSON primitive inside a criteria tree. -/
inductive JPrim where
  | num (n : Int)
  | str (s : String)
  | bool (b : Bool)
  | null
  deriving DecidableEq, Repr

/-- A criteria value: a literal, an array, or a nested plain object.  A
criteria object itself is an ordered field list `List (String × CritVal)`. -/
inductive CritVal where
  | prim (p : JPrim)
  | arr (elems : List CritVal)
  | node (fields : List (String × CritVal))

/-- `isArray` of `mingo/util`. -/
def isArr : CritVal → Bool
  | .arr _ => true
  | _ => false

/-- `isObject` of `mingo/util` (plain objects only, not arrays). -/
def isNode : CritVal → Bool
  | .node _ => true
  | _ => false

/-- The element list of an array value. -/
def elemsOf : CritVal → List CritVal
  | .arr xs => xs
  | _ => []

theorem elemsOf_sizeOf_le (v : CritVal) : sizeOf (elemsOf v) ≤ sizeOf v := by
  cases v <;> simp [elemsOf]

/-- Models `mingo/util`'s `isOperator`: the key starts with a dollar sign. -/
def jsIsOperator (k : String) : Bool :=
  match k.toList with
  | [] => false
  | c :: _ => c = '$'

/-- `comparableOperators` (db.ts lines 7-9). -/
def comparableOperators : List String :=
  ["$eq", "$gt", "$gte", "$in", "$lt", "$lte", "$ne", "$nin", "$regex"]

/-- `logicalOperators` (db.ts lines 10-12). -/
def logicalOperators : List String := ["$and", "$or"]

/-- One `(index, path)` registration from the schema.  `test` is the index's
`testIndice(operator, value)` capability probe (external, pure). -/
structure IndiceBinding where
  indiceId : Nat
  path : Option String
  test : String → CritVal → Bool

/-- The schema collaborator: primary-key field name, primary index, and the
ordered binding list. -/
structure DbSchema where
  idAttr : String
  primaryId : Nat
  bindings : List IndiceBinding

/-- `customOperators` as computed by the `Db` constructor (lines 26-33):
`$`-prefixed binding paths that are neither comparison nor logical operators
(undefined and empty paths are dropped by the truthiness filter). -/
def customOperators (sc : DbSchema) : List String :=
  ((sc.bindings.map (·.path)).filterMap id).filter
    (fun p => jsIsOperator p && !comparableOperators.contains p && !logicalOperators.contains p)

/-- An entry of the planner's staged-index map (`indices` / `sortIndices`):
the JS object `{ ...sortEntry, ...binding, value, op }`. -/
structure Staged where
  indiceId : Nat
  path : Option String
  value : Option CritVal := none
  op : Option String := none
  order : Option Int := none

/-- `Map.set` keyed by the index instance (here its id). -/
def stagedSet (m : List Staged) (st : Staged) : List Staged :=
  if m.any (fun e => e.indiceId = st.indiceId) then
    m.map (fun e => if e.indiceId = st.indiceId then st else e)
  else
    m ++ [st]

/-- `Map.get` keyed by the index instance. -/
def stagedGet (m : List Staged) (id : Nat) : Option Staged :=
  m.find? (fun e => e.indiceId = id)

/-- A sort spec `{ field: 1 | -1 }` as an ordered entry list. -/
abbrev SortSpec := List (String × Int)

/-- The `sortIndices` map built at the top of `buildIndexSearch`
(lines 52-61): one staged entry per sort field that has a registered index. -/
def stageSort (sc : DbSchema) (sort : Option SortSpec) : List Staged :=
  match sort with
  | none => []
  | some entries =>
    entries.foldl
      (fun m e =>
        match sc.bindings.find? (fun b => b.path = some e.1) with
        | some b => stagedSet m { indiceId := b.indiceId, path := b.path, order := some e.2 }
        | none => m)
      []

/-- The `greed` flag of the same loop: `false` without a sort spec; with one,
it starts `true` and is set to `false` whenever a sort field has a registered
index. -/
def computeGreed (sc : DbSchema) (sort : Option SortSpec) : Bool :=
  match sort with
  | none => false
  | some entries =>
    entries.foldl
      (fun g e => if sc.bindings.any (fun b => b.path = some e.1) then false else g)
      true

/-- The state captured by one `buildIndexSearch` call's closure: its local
staged-index map, its sub-plans (pushed only by the nested-object branch — the
`$and`/`$or` combinator at lines 68-92 wraps its push in an arrow function
that is never invoked), the per-call `greed` flag and sort stage, `isRoot`,
and the `(limit || 0) + (skip || 0)` cursor chunk hint. -/
inductive EagerPlan where
  | mk (staged : List Staged) (sortStaged : List Staged) (subPlans : List EagerPlan)
       (greed : Bool) (isRoot : Bool) (chunk : Nat)

def EagerPlan.staged : EagerPlan → List Staged
  | .mk a _ _ _ _ _ => a

def EagerPlan.sortStaged : EagerPlan → List Staged
  | .mk _ a _ _ _ _ => a

def EagerPlan.subPlans : EagerPlan → List EagerPlan
  | .mk _ _ a _ _ _ => a

def EagerPlan.greed : EagerPlan → Bool
  | .mk _ _ _ a _ _ => a

def EagerPlan.isRoot : EagerPlan → Bool
  | .mk _ _ _ _ a _ => a

def EagerPlan.chunk : EagerPlan → Nat
  | .mk _ _ _ _ _ a => a

/-- Accumulator for the `for (const [key, value] of Object.entries(criteria))`
loop: staged indices, pushed sub-plans, and the criteria object as mutated so
far (custom-operator clauses are deleted from it). -/
structure CAcc where
  staged : List Staged := []
  subPlans : List EagerPlan := []
  out : List (String × CritVal) := []

mutual

/-- One recursive `buildIndexSearch` call on a sub-criteria value
(db.ts lines 35-155), returning the compiled plan closure's captured state and
the criteria value after in-place mutation. -/
def buildIndexSearch (sc : DbSchema) (sort : Option SortSpec) (skip limit : Option Nat)
    (v : CritVal) (ctxPath : Option String) (isRoot : Bool) : EagerPlan × CritVal :=
  let sortStaged := stageSort sc sort
  let greed := computeGreed sc sort
  let chunk := limit.getD 0 + skip.getD 0
  match v with
  | .prim p =>
    (.mk [] sortStaged [] greed isRoot chunk, .prim p)
  | .node fields =>
    let acc := compileFields sc sort skip limit sortStaged ctxPath fields {}
    (.mk acc.staged sortStaged acc.subPlans greed isRoot chunk, .node acc.out)
  | .arr elems =>
    let acc := compileArrObj sc sort skip limit sortStaged elems 0 {}
    (.mk acc.staged sortStaged acc.subPlans greed isRoot chunk, .arr (acc.out.map (·.2)))
termination_by sizeOf v
decreasing_by all_goals simp_wf

/-- One iteration of the criteria-entry loop (db.ts lines 63-118). -/
def compileFieldStep (sc : DbSchema) (sort : Option SortSpec) (skip limit : Option Nat)
    (sortStaged : List Staged) (ctxPath : Option String)
    (key : String) (value : CritVal) (acc : CAcc) : CAcc :=
  if logicalOperators.contains key && isArr value then
    -- lines 64-92: every sub-criteria is compiled (mutating it), but the
    -- arrow function that would combine and push the results is a bare
    -- expression statement that never runs, so nothing is staged.
    { acc with out := acc.out ++ [(key, .arr (compileArrSubs sc sort skip limit (elemsOf value)))] }
  else if (customOperators sc).contains key then
    -- lines 93-102: stage the last matching binding, delete the clause.
    match (sc.bindings.filter (fun b => b.path = some key)).getLast? with
    | some b =>
      let st : Staged := { indiceId := b.indiceId, path := b.path, value := some value }
      { acc with staged := stagedSet acc.staged st }
    | none => acc
  else if jsIsOperator key then
    -- lines 103-108: comparison operator at the current path.
    match sc.bindings.find? (fun b => b.path = ctxPath && b.test key value) with
    | some b =>
      let ord := (stagedGet sortStaged b.indiceId).bind (·.order)
      let st : Staged := { indiceId := b.indiceId, path := b.path, value := some value, op := some key, order := ord }
      { acc with staged := stagedSet acc.staged st, out := acc.out ++ [(key, value)] }
    | none => { acc with out := acc.out ++ [(key, value)] }
  else if isNode value then
    -- lines 109-110: nested object, recurse with the path extended.
    let sub := buildIndexSearch sc sort skip limit value (some key) false
    { acc with subPlans := acc.subPlans ++ [sub.1], out := acc.out ++ [(key, sub.2)] }
  else
    -- lines 111-117: plain literal, implicit `$eq`.
    match sc.bindings.find? (fun b => b.path = some key) with
    | some b =>
      let ord := (stagedGet sortStaged b.indiceId).bind (·.order)
      let st : Staged := { indiceId := b.indiceId, path := b.path, value := some value, op := some "$eq", order := ord }
      { acc with staged := stagedSet acc.staged st, out := acc.out ++ [(key, value)] }
    | none => { acc with out := acc.out ++ [(key, value)] }
termination_by sizeOf value + 1
decreasing_by
  all_goals simp_wf
  all_goals (first
    | omega
    | (have h := elemsOf_sizeOf_le value; omega))

/-- The criteria-entry loop (db.ts lines 63-118). -/
def compileFields (sc : DbSchema) (sort : Option SortSpec) (skip limit : Option Nat)
    (sortStaged : List Staged) (ctxPath : Option String) :
    List (String × CritVal) → CAcc → CAcc
  | [], acc => acc
  | (key, value) :: rest, acc =>
    compileFields sc sort skip limit sortStaged ctxPath rest
      (compileFieldStep sc sort skip limit sortStaged ctxPath key value acc)
termination_by l _acc => sizeOf l
decreasing_by
  all_goals simp_wf
  all_goals omega

/-- The recursive compilation of `$and`/`$or` children (line 66); the
resulting plans are captured only by the never-invoked arrow function, so
only the mutated children survive. -/
def compileArrSubs (sc : DbSchema) (sort : Option SortSpec) (skip limit : Option Nat) :
    List CritVal → List CritVal
  | [] => []
  | v :: vs =>
    (buildIndexSearch sc sort skip limit v none false).2
      :: compileArrSubs sc sort skip limit vs
termination_by l => sizeOf l
decreasing_by
  all_goals simp_wf
  all_goals omega

/-- `Object.entries` of an array value treats it as an object with decimal
index keys; such keys are never logical, custom, or `$`-operators. -/
def compileArrObj (sc : DbSchema) (sort : Option SortSpec) (skip limit : Option Nat)
    (sortStaged : List Staged) :
    List CritVal → Nat → CAcc → CAcc
  | [], _, acc => acc
  | v :: vs, i, acc =>
    let key := toString i
    let acc' :=
      if isNode v then
        let sub := buildIndexSearch sc sort skip limit v (some key) false
        { acc with subPlans := acc.subPlans ++ [sub.1], out := acc.out ++ [(key, sub.2)] }
      else
        match sc.bindings.find? (fun b => b.path = some key) with
        | some b =>
          let ord := (stagedGet sortStaged b.indiceId).bind (·.order)
          let st : Staged := { indiceId := b.indiceId, path := b.path, value := some v, op := some "$eq", order := ord }
          { acc with staged := stagedSet acc.staged st, out := acc.out ++ [(key, v)] }
        | none => { acc with out := acc.out ++ [(key, v)] }
    compileArrObj sc sort skip limit sortStaged vs (i + 1) acc'
termination_by l _i _acc => sizeOf l
decreasing_by
  all_goals simp_wf
  all_goals omega

end

/-- A call to `Db.indiceCursor` (lines 247-270), with the option defaults
`operator = '$eq'` and `sort = 1` already applied.  (The `chunkSize` hint is
passed by the planner but dropped by `indiceCursor`'s destructuring.) -/
structure CursorCall where
  indiceId : Nat
  value : Option CritVal
  operator : String
  sortOrder : Int
  chunk : Nat

/-- The shape of the candidate-key stream the invoked plan wires up:
`intersectAsyncIterable` / `combineAsyncIterable` applied to cursors and
sub-streams (the combinators live in the package's `utils`, not shipped under
`src/`; only the structure matters to the claims). -/
inductive StreamExpr where
  | cursor (c : CursorCall)
  | intersect (ss : List StreamExpr)
  | combine (ss : List StreamExpr)

/-- What invoking one compiled plan closure produces (db.ts lines 119-154):
the merged stream, the `greed`/`missed` flags, and the covered path set. -/
structure InvokeResult where
  stream : StreamExpr
  greed : Bool
  missed : Bool
  paths : List (Option String)

/-- JS `Set.prototype.add`: dedupe keeping first insertion. -/
def setAdd {α : Type} [DecidableEq α] (l : List α) (a : α) : List α :=
  if a ∈ l then l else l ++ [a]

/-- The cursor produced for one staged index entry (line 122-124 / 134-135). -/
def cursorCallOf (chunk : Nat) (st : Staged) : CursorCall :=
  { indiceId := st.indiceId, value := st.value,
    operator := st.op.getD "$eq", sortOrder := st.order.getD 1, chunk }

/-- Invoking the plan closure (db.ts lines 119-154): simple cursors from the
staged map, sub-plan invocation, path bookkeeping, the root-only sort-driving
cursors, and the final `greed`/`missed` flags.  `missed` is
`!sortedIterable.length && !indices.size && subResult.every(missed)`. -/
def invoke : EagerPlan → InvokeResult
  | .mk staged sortStaged subPlans greed isRoot chunk =>
    let subRes := subPlans.attach.map (fun x => invoke x.1)
    let simple := staged.map (cursorCallOf chunk)
    let subGreed := subRes.all (·.greed)
    let missed := subRes.all (·.missed)
    let subStreams := subRes.map (·.stream)
    let subPaths := subRes.foldl (fun s r => r.paths.foldl setAdd s) []
    let paths := subPaths.foldl setAdd ((staged.map (·.path)).foldl setAdd [])
    let sorted := (sortStaged.filter (fun st => !(paths.contains st.path) && isRoot)).map (cursorCallOf chunk)
    let missedAll := sorted.isEmpty && staged.isEmpty && missed
    let greedAll := greed && subGreed
    { stream := .intersect ((simple ++ sorted).map .cursor ++ subStreams),
      greed := greedAll, missed := missedAll, paths }
termination_by p => sizeOf p
decreasing_by
  simp_wf
  have h := List.sizeOf_lt_of_mem x.2
  omega

/-- Compiling the root criteria object, as `Db.find` does
(`this.buildIndexSearch(criteria, sort, skip, limit)` with no context):
the plan closure's state and the criteria object after in-place mutation. -/
def compileRoot (sc : DbSchema) (criteria : List (String × CritVal))
    (sort : Option SortSpec) (skip limit : Option Nat) :
    EagerPlan × List (String × CritVal) :=
  let sortStaged := stageSort sc sort
  let greed := computeGreed sc sort
  let chunk := limit.getD 0 + skip.getD 0
  let acc := compileFields sc sort skip limit sortStaged none criteria {}
  (.mk acc.staged sortStaged acc.subPlans greed true chunk, acc.out)

/-- A primary-store record, for the executor's missed branch. -/
abbrev Rec := List (String × JPrim)

/-- `isEnough()` (db.ts line 166): `limit && i === limit && !search.greed`,
with JS truthiness of `limit` (zero and undefined are falsy). -/
def isEnough (limit : Option Nat) (i : Nat) (greed : Bool) : Bool :=
  match limit with
  | some l => decide (l ≠ 0) && decide (i = l) && !greed
  | none => false

/-- The inner `for (const value of values)` loop of the missed branch
(db.ts lines 168-177): `i` advances and a record is kept only when the
predicate matcher accepts it *and* `i >= skip` already holds; `break` on
`isEnough()` leaves only the current batch. -/
def missedBatch (test : Rec → Bool) (skip : Nat) (limit : Option Nat) (greed : Bool) :
    List Rec → Nat × List Rec → Nat × List Rec
  | [], st => st
  | r :: rs, (i, out) =>
    if test r && decide (skip ≤ i) then
      let i' := i + 1
      let out' := out ++ [r]
      if isEnough limit i' greed then (i', out')
      else missedBatch test skip limit greed rs (i', out')
    else missedBatch test skip limit greed rs (i, out)

/-- The missed-branch scan over the primary full-scan cursor's batches
(db.ts lines 167-178).  The `break` only leaves the inner loop, so the scan
continues with the next batch regardless. -/
def missedScan (test : Rec → Bool) (skip : Nat) (limit : Option Nat) (greed : Bool)
    (batches : List (List Rec)) : List Rec :=
  (batches.foldl (fun st b => missedBatch test skip limit greed b st) (0, [])).2

/-- Finalization (db.ts lines 232-242) for a sort-free query: mingo's cursor
applies `skip` before `limit` at materialization; each is applied only when
truthy (non-zero / present) and the plan is greedy. -/
def finalizeNoSort (greed : Bool) (skip : Nat) (limit : Option Nat) (result : List Rec) :
    List Rec :=
  let r1 := if greed && decide (0 < skip) then result.drop skip else result
  match limit with
  | some l => if greed && decide (l ≠ 0) then r1.take l else r1
  | none => r1

/-- `Db.find` (lines 157-245) restricted to sort-free missed plans: compile
the criteria, and when the plan is missed, stream the primary store's
full-scan batches through the predicate matcher (`test` models the external
`mingo.Query(criteria).test`).  A non-missed plan would drain the merged
index stream instead, which needs the semantics of the package's missing
`utils` module, so it is out of this function's scope (`none`). -/
def findMissedNoSort (sc : DbSchema) (criteria : List (String × CritVal))
    (skip : Option Nat) (limit : Option Nat) (test : Rec → Bool)
    (batches : List (List Rec)) : Option (List Rec) :=
  let search := invoke (compileRoot sc criteria none skip limit).1
  if search.missed then
    some (finalizeNoSort search.greed (skip.getD 0) limit
      (missedScan test (skip.getD 0) limit search.greed batches))
  else
    none

end Db

-- ===================================================================
-- Frame predicates and concrete instances used by witnesses and
-- counterexamples
-- ===================================================================

namespace NgramIndice

/-- The option fields the specification lists as fixed at construction
(everything except the mutable `isLoaded` latch). -/
def optionsFrame {K : Type} (o o' : NgOptions K) : Prop :=
  o'.id = o.id ∧ o'.gramLen = o.gramLen ∧ o'.actuationLimit = o.actuationLimit ∧
  o'.actuationLimitAuto = o.actuationLimitAuto ∧ o'.toLowcase = o.toLowcase ∧
  o'.preTokenizr = o.preTokenizr ∧ o'.postTokenizr = o.postTokenizr ∧ o'.load = o.load

end NgramIndice

/-- Options used by several concrete witnesses: 3-grams, fixed threshold 2. -/
def optsFixed : NgramIndice.NgOptions Int :=
  { id := "1", gramLen := 3, actuationLimit := 2, toLowcase := true,
    actuationLimitAuto := false, isLoaded := true }

/-- Like `optsFixed` but with threshold 1. -/
def optsLimit1 : NgramIndice.NgOptions Int :=
  { optsFixed with actuationLimit := 1 }

/-- An index configured lazy, whose loader resolves to one posting list. -/
def lazyOkState : NgramIndice.NgState Int :=
  { indices := [],
    options := { optsFixed with isLoaded := false, load := some (.ok [("abc", [1])]) } }

/-- An index configured lazy with no loader at all. -/
def lazyNoneState : NgramIndice.NgState Int :=
  { indices := [],
    options := { optsFixed with isLoaded := false, load := none } }

/-- An index configured lazy whose loader rejects. -/
def lazyFailState : NgramIndice.NgState Int :=
  { indices := [],
    options := { optsFixed with isLoaded := false, load := some (.error .loadFailed) } }

/-- A loaded dynamic-store index holding one posting list (threshold 1). -/
def dynIdx : NgramIndice.DynState Int :=
  { store := .map [("abc", [1])], options := optsLimit1 }

/-- A schema with equality indices bound to the paths `a` and `b`. -/
def schemaAB : Db.DbSchema :=
  { idAttr := "id", primaryId := 0,
    bindings := [ { indiceId := 1, path := some "a", test := fun _ _ => false },
                  { indiceId := 2, path := some "b", test := fun _ _ => false } ] }

/-- A schema whose only secondary index is bound to the custom top-level
operator `$text`. -/
def schemaText : Db.DbSchema :=
  { idAttr := "id", primaryId := 0,
    bindings := [ { indiceId := 3, path := some "$text", test := fun _ _ => true } ] }

/-- A schema with no secondary indices at all. -/
def schemaNone : Db.DbSchema :=
  { idAttr := "id", primaryId := 0, bindings := [] }

/-- `{ $or: [ { a: 1 }, { b: 2 } ] }`. -/
def critOr : List (String × Db.CritVal) :=
  [("$or", .arr [.node [("a", .prim (.num 1))], .node [("b", .prim (.num 2))]])]

/-- `{ $text: "x", a: 1 }`. -/
def critText : List (String × Db.CritVal) :=
  [("$text", .prim (.str "x")), ("a", .prim (.num 1))]

/-- `{ $and: 5 }` — a logical combinator whose value is not an array. -/
def critAndBad : List (String × Db.CritVal) :=
  [("$and", .prim (.num 5))]

/-- `{ a: 1 }` as a criteria object. -/
def critA : List (String × Db.CritVal) :=
  [("a", .prim (.num 1))]

/-- Three primary records, all with `a = 1`. -/
def rec0 : Db.Rec := [("a", .num 1), ("id", .num 0)]

def rec1 : Db.Rec := [("a", .num 1), ("id", .num 1)]

def rec2 : Db.Rec := [("a", .num 1), ("id", .num 2)]

/-- The external predicate matcher for `{ a: 1 }`
(`new mingo.Query(criteria).test`). -/
def testA : Db.Rec → Bool := fun r => decide (JsMap.get r "a" = some (.num 1))

-- ===================================================================
-- Helper lemmas about the JS map embedding
-- ===================================================================

namespace JsMap

variable {κ ν : Type} [DecidableEq κ]

@[simp] theorem get_nil (k : κ) : get ([] : List (κ × ν)) k = none := rfl

@[simp] theorem get_set_self (m : List (κ × ν)) (k : κ) (v : ν) :
    get (set m k v) k = some v := by
  induction m with
  | nil => simp [get, set]
  | cons e es ih =>
    by_cases h : e.1 = k
    · simp [get, set, h]
    · simp [get, set, h, ih]

theorem get_set_ne (m : List (κ × ν)) (k k' : κ) (v : ν) (h : k' ≠ k) :
    get (set m k v) k' = get m k' := by
  have hk : ¬ (k = k') := fun hh => h hh.symm
  induction m with
  | nil => simp [get, set, hk]
  | cons e es ih =>
    by_cases he : e.1 = k
    · have he' : ¬ (e.1 = k') := by rw [he]; exact hk
      simp [get, set, he, hk, he']
    · by_cases he' : e.1 = k'
      · simp [get, set, he, he', h, hk]
      · simp [get, set, he, he', ih]

@[simp] theorem get_del_self (m : List (κ × ν)) (k : κ) : get (del m k) k = none := by
  induction m with
  | nil => simp [del]
  | cons e es ih =>
    by_cases h : e.1 = k
    · simp [del, h, ih]
    · simp [del, get, h, ih]

theorem get_del_ne (m : List (κ × ν)) (k k' : κ) (h : k' ≠ k) :
    get (del m k) k' = get m k' := by
  have hk : ¬ (k = k') := fun hh => h hh.symm
  induction m with
  | nil => simp [del]
  | cons e es ih =>
    by_cases he : e.1 = k
    · have he' : ¬ (e.1 = k') := by rw [he]; exact hk
      simp [del, get, he, he', ih, hk]
    · by_cases he' : e.1 = k'
      · simp [del, get, he, he', h, hk]
      · simp [del, get, he, he', ih]

omit [DecidableEq κ] in
@[simp] theorem keys_nil : keys ([] : List (κ × ν)) = [] := rfl

omit [DecidableEq κ] in
@[simp] theorem keys_cons (e : κ × ν) (es : List (κ × ν)) :
    keys (e :: es) = e.1 :: keys es := rfl

theorem mem_keys_set (m : List (κ × ν)) (k a : κ) (v : ν) :
    a ∈ keys (set m k v) ↔ a = k ∨ a ∈ keys m := by
  induction m with
  | nil => simp [set]
  | cons e es ih =>
    by_cases he : e.1 = k
    · rw [show set (e :: es) k v = (k, v) :: es from by simp [set, he]]
      simp only [keys_cons, List.mem_cons, he]
      tauto
    · rw [show set (e :: es) k v = e :: set es k v from by simp [set, he]]
      simp only [keys_cons, List.mem_cons, ih]
      tauto

theorem nodup_set (m : List (κ × ν)) (k : κ) (v : ν) (h : KeysNodup m) :
    KeysNodup (set m k v) := by
  unfold KeysNodup at h ⊢
  induction m with
  | nil => simp [set]
  | cons e es ih =>
    simp only [List.map_cons, List.nodup_cons] at h
    by_cases he : e.1 = k
    · simp only [set, he, if_true, List.map_cons, List.nodup_cons]
      exact ⟨he ▸ h.1, h.2⟩
    · simp only [set, he, if_false, List.map_cons, List.nodup_cons]
      refine ⟨?_, ih h.2⟩
      intro hc
      have : e.1 = k ∨ e.1 ∈ es.map (·.1) := (mem_keys_set es k e.1 v).mp hc
      rcases this with hc' | hc'
      · exact he hc'
      · exact h.1 hc'

theorem mem_keys_del (m : List (κ × ν)) (k a : κ) (h : a ∈ keys (del m k)) :
    a ∈ keys m := by
  induction m with
  | nil => simp [del] at h
  | cons e es ih =>
    by_cases he : e.1 = k
    · simp only [del, he, if_true] at h
      rw [keys_cons, List.mem_cons]
      exact Or.inr (ih h)
    · simp only [del, he, if_false, keys_cons, List.mem_cons] at h
      rw [keys_cons, List.mem_cons]
      rcases h with h | h
      · exact Or.inl h
      · exact Or.inr (ih h)

theorem nodup_del (m : List (κ × ν)) (k : κ) (h : KeysNodup m) :
    KeysNodup (del m k) := by
  unfold KeysNodup at h ⊢
  induction m with
  | nil => simp [del]
  | cons e es ih =>
    simp only [List.map_cons, List.nodup_cons] at h
    by_cases he : e.1 = k
    · simp only [del, he, if_true]
      exact ih h.2
    · simp only [del, he, if_false, List.map_cons, List.nodup_cons]
      exact ⟨fun hc => h.1 (mem_keys_del es k e.1 hc), ih h.2⟩

theorem get_mem (m : List (κ × ν)) (k : κ) (v : ν) (h : get m k = some v) :
    (k, v) ∈ m := by
  induction m with
  | nil => simp [get] at h
  | cons e es ih =>
    by_cases he : e.1 = k
    · simp only [get, he, if_true, Option.some.injEq] at h
      rw [List.mem_cons]
      left
      rcases e with ⟨a, b⟩
      simp only at he h
      rw [he, h]
    · simp only [get, he, if_false] at h
      exact List.mem_cons_of_mem _ (ih h)

theorem get_of_mem_nodup (m : List (κ × ν)) (k : κ) (v : ν)
    (hn : KeysNodup m) (h : (k, v) ∈ m) : get m k = some v := by
  induction m with
  | nil => simp at h
  | cons e es ih =>
    unfold KeysNodup at hn
    simp only [List.map_cons, List.nodup_cons] at hn
    rcases List.mem_cons.mp h with h | h
    · rw [← h]
      simp [get]
    · have hke : ¬ e.1 = k := by
        intro hc
        have : k ∈ es.map (·.1) := by
          have := List.mem_map_of_mem (fun x : κ × ν => x.1) h
          simpa using this
        exact hn.1 (hc ▸ this)
      simp only [get, hke, if_false]
      exact ih hn.2 h

theorem get_isSome_iff_mem_keys (m : List (κ × ν)) (k : κ) :
    (get m k).isSome ↔ k ∈ keys m := by
  induction m with
  | nil => simp [get, keys]
  | cons e es ih =>
    rw [keys_cons, List.mem_cons]
    by_cases he : e.1 = k
    · simp [get, he]
    · have hke : ¬ k = e.1 := fun hh => he hh.symm
      simp only [get, he, if_false, ih, hke, false_or]

end JsMap

-- ===================================================================
-- Claim theorems
-- ===================================================================

/-- C6: if an `NgramIndice` is constructed with `isLoaded = false` and no load
function, every query fails with the backing-data-not-loaded error; with a
load function, the first query invokes it exactly once, populating the posting
map before any match logic runs, and later queries do not invoke it again; a
rejecting load propagates to the caller, leaves the index unloaded, and a
subsequent query retries the load (invoking it again). -/
theorem C6_lazy_load {K : Type} [DecidableEq K] (s : NgramIndice.NgState K)
    (tokens : List String) (h : s.options.isLoaded = false) :
    (s.options.load = none →
        NgramIndice.preFilter s tokens = (.error .notLoaded, 0)
      ∧ ∀ v, NgramIndice.find s v = (.error .notLoaded, 0))
  ∧ (∀ d, s.options.load = some (.ok d) →
      ∃ s', NgramIndice.preFilter s tokens
            = (.ok (s', NgramIndice.preFilterPure (JsMap.ofPairs d) tokens), 1)
        ∧ s'.options.isLoaded = true
        ∧ s'.indices = JsMap.ofPairs d
        ∧ ∀ tokens2, NgramIndice.preFilter s' tokens2
            = (.ok (s', NgramIndice.preFilterPure s'.indices tokens2), 0))
  ∧ (∀ e, s.options.load = some (.error e) →
        NgramIndice.preFilter s tokens = (.error e, 1)) := by
  refine ⟨?_, ?_, ?_⟩
  · intro hl
    constructor
    · simp [NgramIndice.preFilter, NgramIndice.load, h, hl]
    · intro v
      simp [NgramIndice.find, NgramIndice.preFilter, NgramIndice.load, h, hl]
  · intro d hl
    refine ⟨{ s with indices := JsMap.ofPairs d, options := { s.options with isLoaded := true } }, ?_, rfl, rfl, ?_⟩
    · simp [NgramIndice.preFilter, NgramIndice.load, h, hl]
    · intro tokens2
      simp [NgramIndice.preFilter, NgramIndice.load]
  · intro e hl
    simp [NgramIndice.preFilter, NgramIndice.load, h, hl]

/-- Witness for C6 at three concrete lazy indices (no loader, succeeding
loader, rejecting loader). -/
theorem C6_lazy_load_witness :
    (lazyNoneState.options.load = none ∧
      NgramIndice.preFilter lazyNoneState ["abc"] = (.error .notLoaded, 0))
  ∧ (lazyOkState.options.load = some (.ok [("abc", [1])]) ∧
      ∃ s', NgramIndice.preFilter lazyOkState ["abc"]
            = (.ok (s', NgramIndice.preFilterPure (JsMap.ofPairs [("abc", [1])]) ["abc"]), 1)
        ∧ s'.options.isLoaded = true
        ∧ s'.indices = JsMap.ofPairs [("abc", [1])]
        ∧ ∀ tokens2, NgramIndice.preFilter s' tokens2
            = (.ok (s', NgramIndice.preFilterPure s'.indices tokens2), 0))
  ∧ (lazyFailState.options.load = some (.error .loadFailed) ∧
      NgramIndice.preFilter lazyFailState ["abc"] = (.error .loadFailed, 1)) := by
  refine ⟨⟨rfl, ?_⟩, ⟨rfl, ?_⟩, ⟨rfl, ?_⟩⟩
  · exact ((C6_lazy_load lazyNoneState ["abc"] rfl).1 rfl).1
  · exact (C6_lazy_load lazyOkState ["abc"] rfl).2.1 [("abc", [1])] rfl
  · exact (C6_lazy_load lazyFailState ["abc"] rfl).2.2 .loadFailed rfl

/-- C9 counterexample: the lazy load triggered by the first query mutates the
options object, flipping its `isLoaded` field from `false` to `true`
(`this.options.isLoaded = true`, ngram.indice.ts line 90), so it is not true
that no operation changes any field of the options object. -/
theorem C9_counterexample :
    ((NgramIndice.load lazyOkState).1.map (fun s' => s'.options.isLoaded) = .ok true)
  ∧ lazyOkState.options.isLoaded = false := by
  constructor
  · rfl
  · rfl

/-- C9 as amended: no operation changes the configuration fields the spec
enumerates — identifier, n-gram length, thresholds, case-folding flag,
tokenization hooks and the deferred-load descriptor; only the `isLoaded`
latch is flipped by a successful lazy load. -/
theorem C9_options_frame {K : Type} [DecidableEq K] (s : NgramIndice.NgState K) :
    (∀ k v, NgramIndice.optionsFrame s.options (NgramIndice.add s k v).options)
  ∧ (∀ s', (NgramIndice.load s).1 = .ok s' → NgramIndice.optionsFrame s.options s'.options)
  ∧ (∀ tokens s' r, (NgramIndice.preFilter s tokens).1 = .ok (s', r) →
      NgramIndice.optionsFrame s.options s'.options)
  ∧ (∀ v s' r, (NgramIndice.find s v).1 = .ok (s', r) →
      NgramIndice.optionsFrame s.options s'.options) := by
  have hload : ∀ s', (NgramIndice.load s).1 = .ok s' →
      NgramIndice.optionsFrame s.options s'.options := by
    intro s' hs'
    unfold NgramIndice.load at hs'
    by_cases h : s.options.isLoaded
    · simp only [h, if_true] at hs'
      cases hs'
      exact ⟨rfl, rfl, rfl, rfl, rfl, rfl, rfl, rfl⟩
    · simp only [h, Bool.false_eq_true, if_false] at hs'
      match hl : s.options.load with
      | some (.ok d) =>
        rw [hl] at hs'
        simp only [Except.ok.injEq] at hs'
        rw [← hs']
        exact ⟨rfl, rfl, rfl, rfl, rfl, rfl, rfl, hl.symm⟩
      | some (.error e) => rw [hl] at hs'; simp at hs'
      | none => rw [hl] at hs'; simp at hs'
  refine ⟨?_, hload, ?_, ?_⟩
  · intro k v
    exact ⟨rfl, rfl, rfl, rfl, rfl, rfl, rfl, rfl⟩
  · intro tokens s' r hs'
    unfold NgramIndice.preFilter at hs'
    match hl : NgramIndice.load s with
    | (.ok s'', n) =>
      rw [hl] at hs'
      simp only [Except.ok.injEq, Prod.mk.injEq] at hs'
      have := hload s'' (by rw [hl])
      rw [← hs'.1]
      exact this
    | (.error e, n) => rw [hl] at hs'; simp at hs'
  · intro v s' r hs'
    unfold NgramIndice.find NgramIndice.preFilter at hs'
    match hl : NgramIndice.load s with
    | (.ok s'', n) =>
      rw [hl] at hs'
      simp only [Except.ok.injEq, Prod.mk.injEq] at hs'
      have := hload s'' (by rw [hl])
      rw [← hs'.1]
      exact this
    | (.error e, n) => rw [hl] at hs'; simp at hs'

/-- Witness for the C9 frame theorem at a concrete index and operation. -/
theorem C9_options_frame_witness :
    NgramIndice.optionsFrame lazyOkState.options
      (NgramIndice.add lazyOkState 7 (.inl "abc")).options :=
  (C9_options_frame lazyOkState).1 7 (.inl "abc")

/-- `Map.get` over an appended list looks left first. -/
theorem JsMap.get_append {κ ν : Type} [DecidableEq κ] (m m' : List (κ × ν)) (k : κ) :
    JsMap.get (m ++ m') k
      = match JsMap.get m k with
        | some v => some v
        | none => JsMap.get m' k := by
  induction m with
  | nil => simp [JsMap.get]
  | cons e es ih =>
    by_cases he : e.1 = k
    · simp [JsMap.get, he]
    · simp [JsMap.get, he, ih]

/-- A custom-operator key is never a logical operator (db.ts lines 26-33). -/
theorem Db.custom_not_logical (sc : Db.DbSchema) (k : String)
    (hk : (Db.customOperators sc).contains k = true) :
    Db.logicalOperators.contains k = false := by
  unfold Db.customOperators at hk
  rw [List.contains_eq_any_beq] at hk
  simp only [List.any_eq_true, List.mem_filter] at hk
  obtain ⟨p, ⟨_, hp⟩, hpk⟩ := hk
  have hpk' : k = p := by simpa using hpk
  subst hpk'
  simp only [Bool.and_eq_true, Bool.not_eq_true'] at hp
  exact hp.2

/-- After one entry-loop iteration, a custom-operator key still has no entry
in the (mutated) criteria object. -/
theorem Db.compileFieldStep_out_custom (sc : Db.DbSchema) (sort : Option Db.SortSpec)
    (skip limit : Option Nat) (ss : List Db.Staged) (ctx : Option String)
    (key : String) (value : Db.CritVal) (acc : Db.CAcc) (k : String)
    (hk : (Db.customOperators sc).contains k = true)
    (hout : JsMap.get acc.out k = none) :
    JsMap.get (Db.compileFieldStep sc sort skip limit ss ctx key value acc).out k = none := by
  have hlog := Db.custom_not_logical sc k hk
  unfold Db.compileFieldStep
  by_cases h1 : Db.logicalOperators.contains key && Db.isArr value
  · have hne : ¬ (key = k) := by
      intro he
      subst he
      simp only [Bool.and_eq_true] at h1
      rw [hlog] at h1
      cases h1.1
    simp only [h1, if_true]
    rw [JsMap.get_append, hout]
    simp [JsMap.get, hne]
  · simp only [h1, Bool.false_eq_true, if_false]
    by_cases h2 : (Db.customOperators sc).contains key
    · simp only [h2, if_true]
      cases (sc.bindings.filter (fun b => b.path = some key)).getLast? with
      | none => exact hout
      | some b => exact hout
    · have hne : ¬ (key = k) := by
        intro he
        rw [he, hk] at h2
        exact h2 rfl
      simp only [h2, Bool.false_eq_true, if_false]
      by_cases h3 : Db.jsIsOperator key
      · simp only [h3, if_true]
        cases sc.bindings.find? (fun b => b.path = ctx && b.test key value) with
        | none =>
          simp only
          rw [JsMap.get_append, hout]
          simp [JsMap.get, hne]
        | some b =>
          simp only
          rw [JsMap.get_append, hout]
          simp [JsMap.get, hne]
      · simp only [h3, Bool.false_eq_true, if_false]
        by_cases h4 : Db.isNode value
        · simp only [h4, if_true]
          rw [JsMap.get_append, hout]
          simp [JsMap.get, hne]
        · simp only [h4, Bool.false_eq_true, if_false]
          cases sc.bindings.find? (fun b => b.path = some key) with
          | none =>
            simp only
            rw [JsMap.get_append, hout]
            simp [JsMap.get, hne]
          | some b =>
            simp only
            rw [JsMap.get_append, hout]
            simp [JsMap.get, hne]

/-- The entry loop never reintroduces a custom-operator key into the mutated
criteria object. -/
theorem Db.compileFields_out_custom (sc : Db.DbSchema) (sort : Option Db.SortSpec)
    (skip limit : Option Nat) (ss : List Db.Staged) (ctx : Option String)
    (l : List (String × Db.CritVal)) (acc : Db.CAcc) (k : String)
    (hk : (Db.customOperators sc).contains k = true)
    (hout : JsMap.get acc.out k = none) :
    JsMap.get (Db.compileFields sc sort skip limit ss ctx l acc).out k = none := by
  induction l generalizing acc with
  | nil => simpa [Db.compileFields] using hout
  | cons e rest ih =>
    rw [show Db.compileFields sc sort skip limit ss ctx (e :: rest) acc
        = Db.compileFields sc sort skip limit ss ctx rest
            (Db.compileFieldStep sc sort skip limit ss ctx e.1 e.2 acc) from by
      rw [Db.compileFields]]
    exact ih _ (Db.compileFieldStep_out_custom sc sort skip limit ss ctx e.1 e.2 acc k hk hout)

/-- C10: `buildIndexSearch` (and hence `Db.find`, which hands the same object
to the predicate matcher afterwards) deletes every registered custom
top-level operator clause from the caller's criteria object in place
(`delete criteria[key]`, db.ts line 102): after compilation the criteria
object no longer contains that key. -/
theorem C10_custom_operator_deleted (sc : Db.DbSchema)
    (criteria : List (String × Db.CritVal)) (sort : Option Db.SortSpec)
    (skip limit : Option Nat) (k : String)
    (hk : (Db.customOperators sc).contains k = true) :
    JsMap.get (Db.compileRoot sc criteria sort skip limit).2 k = none := by
  unfold Db.compileRoot
  exact Db.compileFields_out_custom sc sort skip limit _ none criteria {} k hk rfl

/-- Witness for C10: compiling `{ $text: "x", a: 1 }` against a schema whose
index is registered on the custom operator `$text` removes the `$text`
clause from the caller's criteria object. -/
theorem C10_custom_operator_deleted_witness :
    JsMap.get (Db.compileRoot schemaText critText none none none).2 "$text" = none :=
  C10_custom_operator_deleted schemaText critText none none none "$text" (by decide)

/-- C8 counterexample: compiling `{ $and: 5 }` (a logical combinator whose
value is not an array) does not fail: `buildIndexSearch` has no error path at
all — the clause merely fails the `isArray` test (db.ts line 64), falls into
the `$`-operator branch, stages nothing, and compilation silently returns an
ordinary (here missed) plan with the clause left in the criteria object. -/
theorem C8_counterexample :
    (Db.compileRoot schemaAB critAndBad none none none).2 = critAndBad
  ∧ (Db.invoke (Db.compileRoot schemaAB critAndBad none none none).1).missed = true
  ∧ (Db.invoke (Db.compileRoot schemaAB critAndBad none none none).1).stream
      = .intersect [] := by
  refine ⟨?_, ?_, ?_⟩ <;>
    simp [Db.compileRoot, Db.compileFields, Db.compileFieldStep, Db.invoke,
      Db.customOperators, Db.logicalOperators, Db.comparableOperators, Db.jsIsOperator,
      Db.isArr, Db.isNode, Db.elemsOf, Db.stageSort, Db.computeGreed, Db.stagedSet,
      Db.stagedGet, Db.setAdd, Db.cursorCallOf, schemaAB, critAndBad]

/-- C8 as amended: plan compilation performs no validation of logical
combinators.  At the root (where the context path is undefined and every
binding has a defined path), a `$and`/`$or` clause whose value is a primitive
is processed as an ordinary `$`-operator clause that stages no index and
leaves the clause in the criteria object — compilation succeeds silently and
any error can only arise later in the external predicate matcher. -/
theorem C8_no_fail_fast (sc : Db.DbSchema) (sort : Option Db.SortSpec)
    (skip limit : Option Nat) (ss : List Db.Staged) (key : String) (p : Db.JPrim)
    (acc : Db.CAcc)
    (hkey : Db.logicalOperators.contains key = true)
    (hb : ∀ b ∈ sc.bindings, b.path ≠ none) :
    Db.compileFieldStep sc sort skip limit ss none key (.prim p) acc
      = { acc with out := acc.out ++ [(key, .prim p)] } := by
  have hcustom : (Db.customOperators sc).contains key = false := by
    by_contra hc
    have := Db.custom_not_logical sc key (by
      cases h : (Db.customOperators sc).contains key
      · exact absurd h hc
      · rfl)
    rw [hkey] at this
    cases this
  have hop : Db.jsIsOperator key = true := by
    rw [List.contains_eq_any_beq] at hkey
    simp only [List.any_eq_true] at hkey
    obtain ⟨x, hx, hxk⟩ := hkey
    have : key = x := by simpa using hxk
    subst this
    simp only [Db.logicalOperators, List.mem_cons, List.mem_singleton] at hx
    rcases hx with h | h | h
    · rw [h]; rfl
    · rw [h]; rfl
    · simp at h
  have hfind : sc.bindings.find? (fun b => b.path = none && b.test key (.prim p)) = none := by
    rw [List.find?_eq_none]
    intro b hbmem
    have := hb b hbmem
    simp [this]
  have hcustom' : key ∉ Db.customOperators sc := by simpa using hcustom
  unfold Db.compileFieldStep
  simp [hkey, hcustom, hcustom', hop, hfind, Db.isArr]

/-- Witness for C8 at `{ $and: 5 }` against the two-binding schema. -/
theorem C8_no_fail_fast_witness :
    Db.compileFieldStep schemaAB none none none [] none "$and" (.prim (.num 5)) {}
      = { out := [("$and", .prim (.num 5))] } :=
  C8_no_fail_fast schemaAB none none none [] "$and" (.num 5) {} (by decide)
    (by intro b hb; fin_cases hb <;> simp [schemaAB])

/-- C2: the claim fails because the arrow function that would combine and
push the `$and`/`$or` sub-plans (db.ts lines 68-92) is a bare expression
statement that is never invoked.  Compiling `{ $or: [{a: 1}, {b: 2}] }`
against a schema with indices on `a` and `b` therefore yields a plan whose
stream contains no sub-streams at all (`intersect []`) and whose `missed`
flag is `true` (computed over an empty sub-plan list), even though each child
criteria on its own compiles to a non-missed plan — under the claim the
combined stream would be the union of the two child streams and `missed`
would be `false ∨ false = false`. -/
theorem C2_dead_combinator :
    (Db.invoke (Db.compileRoot schemaAB critOr none none none).1).missed = true
  ∧ (Db.invoke (Db.compileRoot schemaAB critOr none none none).1).stream
      = .intersect []
  ∧ (Db.invoke (Db.buildIndexSearch schemaAB none none none
      (.node [("a", .prim (.num 1))]) none false).1).missed = false
  ∧ (Db.invoke (Db.buildIndexSearch schemaAB none none none
      (.node [("b", .prim (.num 2))]) none false).1).missed = false := by
  refine ⟨?_, ?_, ?_, ?_⟩ <;>
    simp [Db.compileRoot, Db.compileFields, Db.compileFieldStep, Db.buildIndexSearch,
      Db.compileArrSubs, Db.compileArrObj, Db.invoke,
      Db.customOperators, Db.logicalOperators, Db.comparableOperators, Db.jsIsOperator,
      Db.isArr, Db.isNode, Db.elemsOf, Db.stageSort, Db.computeGreed, Db.stagedSet,
      Db.stagedGet, Db.setAdd, Db.cursorCallOf, schemaAB, critOr]

/-- C1: the claim fails on the code whenever `skip > 0`.  In the missed
branch the guard is `if (query.test(value) && i >= skip)` and `i` is
incremented only *inside* that guard (db.ts lines 170-171), so with
`skip = 1` the counter never advances past `0`, the guard never fires, and
`find` returns the empty list — instead of the predicate matcher's result
with the first `skip` accepted records dropped ( `[rec1, rec2]` here).  The
final `res.skip(skip)` is also not applied because a sort-free plan is never
greedy. -/
theorem C1_missed_skip_bug :
    Db.findMissedNoSort schemaNone critA (some 1) none testA [[rec0, rec1, rec2]]
      = some []
  ∧ ([[rec0, rec1, rec2]].flatten.filter testA).drop 1 = [rec1, rec2]
  ∧ [rec1, rec2] ≠ ([] : List Db.Rec) := by
  refine ⟨?_, by decide, by decide⟩
  simp [Db.findMissedNoSort, Db.compileRoot, Db.compileFields, Db.compileFieldStep,
    Db.invoke, Db.customOperators, Db.logicalOperators, Db.comparableOperators,
    Db.jsIsOperator, Db.isArr, Db.isNode, Db.elemsOf, Db.stageSort, Db.computeGreed,
    Db.stagedSet, Db.stagedGet, Db.setAdd, Db.cursorCallOf, Db.missedScan,
    Db.missedBatch, Db.isEnough, Db.finalizeNoSort, schemaNone, critA, testA,
    rec0, rec1, rec2, JsMap.get]

/-- C7 counterexample: `serialize()` emits the posting data as a plain array
of `[token, keys]` entries, but `deserialize(s.data, s.options)` assigns that
array verbatim to `this.indices` (ngram.indice.ts line 142) without
rebuilding a `Map`; the first `this.indices.get(token)` on the round-tripped
index is then a call of an undefined method and throws, while the original
index answers the same query with `[1]`. -/
theorem C7_counterexample :
    NgramIndice.findDyn
        (NgramIndice.deserialize (some (NgramIndice.serialize dynIdx).1)
          (NgramIndice.serialize dynIdx).2)
        (some (.inl "abc"))
      = .error .typeError
  ∧ NgramIndice.findDyn dynIdx (some (.inl "abc")) = .ok (dynIdx, [1]) := by
  constructor
  · rfl
  · rfl

/-- `Map.set` on an absent key appends the entry. -/
theorem JsMap.set_eq_append_of_not_mem {κ ν : Type} [DecidableEq κ]
    (m : List (κ × ν)) (k : κ) (v : ν) (h : ¬ k ∈ JsMap.keys m) :
    JsMap.set m k v = m ++ [(k, v)] := by
  induction m with
  | nil => rfl
  | cons e es ih =>
    rw [JsMap.keys_cons, List.mem_cons] at h
    push_neg at h
    have he : ¬ e.1 = k := fun hh => h.1 hh.symm
    simp only [JsMap.set, he, if_false, List.cons_append, List.cons.injEq, true_and]
    exact ih h.2

/-- `new Map(pairs)` is the identity on a duplicate-free entry list. -/
theorem JsMap.ofPairs_self_of_nodup {κ ν : Type} [DecidableEq κ]
    (m : List (κ × ν)) (hn : JsMap.KeysNodup m) : JsMap.ofPairs m = m := by
  suffices h : ∀ (l acc : List (κ × ν)), (JsMap.keys (acc ++ l)).Nodup →
      l.foldl (fun m e => JsMap.set m e.1 e.2) acc = acc ++ l by
    have := h m [] (by simpa [JsMap.keys] using hn)
    simpa [JsMap.ofPairs] using this
  intro l
  induction l with
  | nil => intro acc _; simp
  | cons e es ih =>
    intro acc hnd
    have hmem : ¬ e.1 ∈ JsMap.keys acc := by
      intro hc
      unfold JsMap.keys at hnd hc
      rw [List.map_append, List.nodup_append] at hnd
      exact hnd.2.2 hc (by simp)
    rw [List.foldl_cons, JsMap.set_eq_append_of_not_mem acc e.1 e.2 hmem]
    have : (acc ++ [(e.1, e.2)]) ++ es = acc ++ e :: es := by simp
    rw [ih (acc ++ [(e.1, e.2)]) (by rw [this]; exact hnd)]
    simp

/-- C7 as amended: the round-trip does hold once the serialized entry list is
rehydrated into a `Map` (i.e. `deserialize(new Map(s.data), s.options)`), for
a loaded index with a well-formed (duplicate-free) token map: every query
returns the same key list, and the options are separable — `serialize` yields
the bulk entry data apart from a load-free copy of the options. -/
theorem C7_roundtrip_rehydrated {K : Type} [DecidableEq K]
    (s : NgramIndice.DynState K) (m : List (String × List K))
    (hs : s.store = .map m) (hl : s.options.isLoaded = true)
    (hn : JsMap.KeysNodup m) :
    (∀ v, (NgramIndice.findDyn
        (NgramIndice.deserialize
          (some (.map (JsMap.ofPairs (NgramIndice.storeEntries (NgramIndice.serialize s).1))))
          (NgramIndice.serialize s).2)
        v).map (fun p => p.2)
      = (NgramIndice.findDyn s v).map (fun p => p.2))
  ∧ (NgramIndice.serialize s).1 = .arr m
  ∧ (NgramIndice.serialize s).2 = { s.options with load := none } := by
  obtain ⟨st, o⟩ := s
  simp only at hs hl
  subst hs
  refine ⟨?_, rfl, rfl⟩
  intro v
  have hof : JsMap.ofPairs m = m := JsMap.ofPairs_self_of_nodup m hn
  have htok : ∀ w, NgramIndice.tokenizrMulti ({ o with isLoaded := true, load := none } : NgramIndice.NgOptions K) w
      = NgramIndice.tokenizrMulti o w := fun _ => rfl
  have hpost : ∀ pre tokens, NgramIndice.postFilter ({ o with isLoaded := true, load := none } : NgramIndice.NgOptions K) pre tokens
      = NgramIndice.postFilter o pre tokens := fun _ _ => rfl
  simp only [NgramIndice.serialize, NgramIndice.storeEntries, NgramIndice.serializeOptions,
    hof, NgramIndice.deserialize]
  cases v with
  | none =>
    unfold NgramIndice.findDyn
    simp only [NgramIndice.loadDyn, hl, if_true]
    cases hE : NgramIndice.preFilterPureDyn (NgramIndice.Store.map m) ([] : List String) with
    | error e => simp [Except.map, hE, bind, Except.bind]
    | ok pre => simp [Except.map, hE, bind, Except.bind, pure, Except.pure, hpost]
  | some w =>
    unfold NgramIndice.findDyn
    simp only [NgramIndice.loadDyn, hl, if_true, htok]
    cases hE : NgramIndice.preFilterPureDyn (NgramIndice.Store.map m)
        (NgramIndice.tokenizrMulti o w) with
    | error e => simp [Except.map, hE, bind, Except.bind]
    | ok pre => simp [Except.map, hE, bind, Except.bind, pure, Except.pure, hpost]

/-- Witness for the C7 round-trip at the concrete one-entry index. -/
theorem C7_roundtrip_rehydrated_witness :
    dynIdx.store = .map [("abc", [1])] ∧
    (NgramIndice.serialize dynIdx).1 = .arr [("abc", [1])] :=
  ⟨rfl, (C7_roundtrip_rehydrated dynIdx [("abc", [1])] rfl rfl
    (by unfold JsMap.KeysNodup; decide)).2.1⟩

/-- The one-step unfolding of `Map.get`. -/
theorem JsMap.get_cons {κ ν : Type} [DecidableEq κ] (e : κ × ν) (es : List (κ × ν)) (k : κ) :
    JsMap.get (e :: es) k = if e.1 = k then some e.2 else JsMap.get es k := rfl

/-- Deleting other keys never resurrects an absent key. -/
theorem JsMap.get_del_none {κ ν : Type} [DecidableEq κ] (m : List (κ × ν)) (k x : κ)
    (h : JsMap.get m k = none) : JsMap.get (JsMap.del m x) k = none := by
  by_cases hx : k = x
  · subst hx; exact JsMap.get_del_self m k
  · rw [JsMap.get_del_ne m x k hx]; exact h

/-- A key deleted during the fold stays deleted. -/
theorem JsMap.get_foldl_del_none {κ ν : Type} [DecidableEq κ] (l : List κ)
    (m : List (κ × ν)) (k : κ) (h : JsMap.get m k = none) :
    JsMap.get (l.foldl JsMap.del m) k = none := by
  induction l generalizing m with
  | nil => exact h
  | cons x xs ih => exact ih (JsMap.del m x) (JsMap.get_del_none m k x h)

/-- Every key of the deletion list is absent after the fold. -/
theorem JsMap.get_foldl_del_of_mem {κ ν : Type} [DecidableEq κ] (l : List κ)
    (m : List (κ × ν)) (k : κ) (h : k ∈ l) :
    JsMap.get (l.foldl JsMap.del m) k = none := by
  induction l generalizing m with
  | nil => simp at h
  | cons x xs ih =>
    rcases List.mem_cons.mp h with h | h
    · subst h
      exact JsMap.get_foldl_del_none xs (JsMap.del m k) k (JsMap.get_del_self m k)
    · exact ih (JsMap.del m x) h

/-- Deletion can only remove a key's entry, never change its value. -/
theorem JsMap.get_foldl_del_cases {κ ν : Type} [DecidableEq κ] (l : List κ)
    (m : List (κ × ν)) (k : κ) :
    JsMap.get (l.foldl JsMap.del m) k = none ∨
    JsMap.get (l.foldl JsMap.del m) k = JsMap.get m k := by
  induction l generalizing m with
  | nil => exact Or.inr rfl
  | cons x xs ih =>
    rw [List.foldl_cons]
    by_cases hx : k = x
    · subst hx
      exact Or.inl (JsMap.get_foldl_del_none xs (JsMap.del m k) k (JsMap.get_del_self m k))
    · rcases ih (JsMap.del m x) with h | h
      · exact Or.inl h
      · rw [h, JsMap.get_del_ne m x k hx]
        exact Or.inr rfl

/-- The delete fold preserves well-formedness. -/
theorem JsMap.nodup_foldl_del {κ ν : Type} [DecidableEq κ] (l : List κ)
    (m : List (κ × ν)) (h : JsMap.KeysNodup m) :
    JsMap.KeysNodup (l.foldl JsMap.del m) := by
  induction l generalizing m with
  | nil => exact h
  | cons x xs ih => exact ih (JsMap.del m x) (JsMap.nodup_del m x h)

namespace NgramIndice

variable {K : Type} [DecidableEq K]

/-- Merging a shard result adds exactly that shard's weight for every key. -/
theorem getD_mergeWeights (cw w : List (K × Nat)) (k : K) :
    JsMap.getD (mergeWeights cw w) k 0 = JsMap.getD cw k 0 + entW w k := by
  induction w generalizing cw with
  | nil => simp [mergeWeights, entW]
  | cons e es ih =>
    rw [show mergeWeights cw (e :: es)
        = mergeWeights (JsMap.set cw e.1 (e.2 + JsMap.getD cw e.1 0)) es from rfl]
    rw [ih]
    by_cases he : e.1 = k
    · subst he
      rw [show JsMap.getD (JsMap.set cw e.1 (e.2 + JsMap.getD cw e.1 0)) e.1 0
          = e.2 + JsMap.getD cw e.1 0 from by
        unfold JsMap.getD
        rw [JsMap.get_set_self]
        rfl]
      rw [show entW (e :: es) e.1 = e.2 + entW es e.1 from by simp [entW]]
      omega
    · rw [show JsMap.getD (JsMap.set cw e.1 (e.2 + JsMap.getD cw e.1 0)) k 0
          = JsMap.getD cw k 0 from by
        unfold JsMap.getD
        rw [JsMap.get_set_ne cw e.1 k _ (fun hh => he hh.symm)]]
      rw [show entW (e :: es) k = entW es k from by simp [entW, he]]

/-- The merge preserves well-formedness. -/
theorem nodup_mergeWeights (cw w : List (K × Nat)) (h : JsMap.KeysNodup cw) :
    JsMap.KeysNodup (mergeWeights cw w) := by
  induction w generalizing cw with
  | nil => exact h
  | cons e es ih =>
    exact ih (JsMap.set cw e.1 (e.2 + JsMap.getD cw e.1 0)) (JsMap.nodup_set cw e.1 _ h)

omit [DecidableEq K] in
/-- Membership in `postFilter` is an entry at/above the threshold. -/
theorem postFilter_mem (o : NgOptions K) (m : List (K × Nat)) (tokens : List String) (k : K) :
    k ∈ postFilter o m tokens ↔
      ∃ e ∈ m, e.1 = k ∧ getLimit o.actuationLimitAuto tokens.length o.actuationLimit ≤ (e.2 : ℚ) := by
  unfold postFilter
  rw [List.mem_map]
  constructor
  · rintro ⟨e, he, hk⟩
    rw [List.mem_filter] at he
    exact ⟨e, he.1, hk, by simpa using he.2⟩
  · rintro ⟨e, he, hk, hth⟩
    exact ⟨e, List.mem_filter.mpr ⟨he, by simpa using hth⟩, hk⟩

/-- If a key's residual weight plus everything later shards can still add
stays below the threshold, no later batch can contain it. -/
theorem cursor_no_emit (o : NgOptions K) (truthy : K → Bool) (tokens : List String) :
    ∀ (ws : List (List (K × Nat))) (cw : List (K × Nat)) (k : K),
      JsMap.KeysNodup cw →
      (((JsMap.getD cw k 0 : ℕ) : ℚ) + (wTotal ws k : ℚ)
          < getLimit o.actuationLimitAuto tokens.length o.actuationLimit) →
      ∀ b ∈ cursorAllBatches o truthy tokens ws cw, k ∉ b := by
  intro ws
  induction ws with
  | nil =>
    intro cw k _ _ b hb
    simp [cursorAllBatches] at hb
  | cons w rest ih =>
    intro cw k hnd hlt b hb
    have hnd1 : JsMap.KeysNodup (mergeWeights cw w) := nodup_mergeWeights cw w hnd
    have hne : k ∉ (cursorStep o truthy tokens cw w).1 := by
      intro hk
      unfold cursorStep at hk
      simp only [List.mem_reverse, List.mem_filter] at hk
      have hk' := hk.1
      rw [postFilter_mem] at hk'
      obtain ⟨e, he, hek, hth⟩ := hk'
      have hget : JsMap.get (mergeWeights cw w) k = some e.2 := by
        rw [← hek]
        exact JsMap.get_of_mem_nodup _ e.1 e.2 hnd1 (by cases e; exact he)
      have hgd : JsMap.getD (mergeWeights cw w) k 0 = e.2 := by
        unfold JsMap.getD
        rw [hget]
        rfl
      have hsum := getD_mergeWeights cw w k
      rw [hgd] at hsum
      have hle : (e.2 : ℚ) ≤ ((JsMap.getD cw k 0 : ℕ) : ℚ) + (wTotal (w :: rest) k : ℚ) := by
        have h1 : e.2 ≤ JsMap.getD cw k 0 + wTotal (w :: rest) k := by
          have : wTotal (w :: rest) k = entW w k + wTotal rest k := by simp [wTotal]
          omega
        exact_mod_cast h1
      linarith
    have hnd2 : JsMap.KeysNodup (cursorStep o truthy tokens cw w).2 :=
      JsMap.nodup_foldl_del _ _ hnd1
    have hlt2 : (((JsMap.getD (cursorStep o truthy tokens cw w).2 k 0 : ℕ) : ℚ)
        + (wTotal rest k : ℚ)
        < getLimit o.actuationLimitAuto tokens.length o.actuationLimit) := by
      have hd : JsMap.getD (cursorStep o truthy tokens cw w).2 k 0
          ≤ JsMap.getD cw k 0 + entW w k := by
        unfold cursorStep
        simp only
        rcases JsMap.get_foldl_del_cases (postFilter o (mergeWeights cw w) tokens)
            (mergeWeights cw w) k with h | h
        · unfold JsMap.getD
          rw [h]
          simp
        · unfold JsMap.getD
          rw [h]
          have := getD_mergeWeights cw w k
          unfold JsMap.getD at this
          omega
      have hq : (((JsMap.getD (cursorStep o truthy tokens cw w).2 k 0 : ℕ) : ℚ))
          ≤ ((JsMap.getD cw k 0 : ℕ) : ℚ) + (entW w k : ℚ) := by exact_mod_cast hd
      have hw : (wTotal (w :: rest) k : ℚ) = (entW w k : ℚ) + (wTotal rest k : ℚ) := by
        have : wTotal (w :: rest) k = entW w k + wTotal rest k := by simp [wTotal]
        exact_mod_cast this
      rw [hw] at hlt
      linarith
    unfold cursorAllBatches at hb
    by_cases hempty : (cursorStep o truthy tokens cw w).1.isEmpty
    · simp only [hempty, if_true] at hb
      exact ih _ k hnd2 hlt2 b hb
    · simp only [hempty, Bool.false_eq_true, if_false, List.mem_cons] at hb
      rcases hb with hb | hb
      · subst hb
        exact hne
      · exact ih _ k hnd2 hlt2 b hb

/-- A key that appears in a batch has just been deleted from the running
combined-weight map. -/
theorem cursorStep_deletes (o : NgOptions K) (truthy : K → Bool) (tokens : List String)
    (cw w : List (K × Nat)) (k : K) (hk : k ∈ (cursorStep o truthy tokens cw w).1) :
    JsMap.get (cursorStep o truthy tokens cw w).2 k = none := by
  unfold cursorStep at hk ⊢
  simp only [List.mem_reverse, List.mem_filter] at hk
  exact JsMap.get_foldl_del_of_mem _ _ k hk.1

end NgramIndice

/-- C4 counterexample: with threshold 2, two shards that each assign weight 2
to key `1` (each built by `add(1, "abc abc")`) make `cursorAll` emit key `1`
in *two* batches: the key is deleted from the running map when the first
shard's batch is computed, so the second shard's weight alone re-crosses the
threshold and the key is reported again. -/
theorem C4_counterexample :
    NgramIndice.cursorAllBatches optsFixed (fun k => decide (k ≠ 0))
      (NgramIndice.tokenizr optsFixed "abc")
      ([[("abc", [1, 1])], [("abc", [1, 1])]].map
        (fun sh => NgramIndice.preFilterPure sh (NgramIndice.tokenizr optsFixed "abc")))
      []
    = [[1], [1]] := by decide

/-- C4 as amended: a key that is emitted is removed from the running
combined-weight map at that moment, and it is *not* reported in any later
batch provided the weights the later-completing shards still add for it stay
(strictly) below the threshold; re-emission is possible exactly when the
post-deletion contributions alone re-cross the threshold (see the
counterexample). -/
theorem C4_no_reemission {K : Type} [DecidableEq K] (o : NgramIndice.NgOptions K)
    (truthy : K → Bool) (tokens : List String) (cw w : List (K × Nat))
    (post : List (List (K × Nat))) (k : K)
    (hnd : JsMap.KeysNodup cw)
    (hk : k ∈ (NgramIndice.cursorStep o truthy tokens cw w).1)
    (htail : ((NgramIndice.wTotal post k : ℕ) : ℚ)
        < NgramIndice.getLimit o.actuationLimitAuto tokens.length o.actuationLimit) :
    JsMap.get (NgramIndice.cursorStep o truthy tokens cw w).2 k = none
  ∧ ∀ b ∈ NgramIndice.cursorAllBatches o truthy tokens post
        (NgramIndice.cursorStep o truthy tokens cw w).2, k ∉ b := by
  have hdel := NgramIndice.cursorStep_deletes o truthy tokens cw w k hk
  refine ⟨hdel, ?_⟩
  have hnd2 : JsMap.KeysNodup (NgramIndice.cursorStep o truthy tokens cw w).2 := by
    unfold NgramIndice.cursorStep
    exact JsMap.nodup_foldl_del _ _ (NgramIndice.nodup_mergeWeights cw w hnd)
  have hzero : JsMap.getD (NgramIndice.cursorStep o truthy tokens cw w).2 k 0 = 0 := by
    unfold JsMap.getD
    rw [hdel]
    rfl
  apply NgramIndice.cursor_no_emit o truthy tokens post _ k hnd2
  rw [hzero]
  simpa using htail

/-- Witness for C4: one shard emits key `1`, and since the (single) later
shard only adds weight 1 < 2, the key is never re-emitted. -/
theorem C4_no_reemission_witness :
    (1 : Int) ∈ (NgramIndice.cursorStep optsFixed (fun k => decide (k ≠ 0))
        ["abc"] [] [(1, 2)]).1
  ∧ JsMap.get (NgramIndice.cursorStep optsFixed (fun k => decide (k ≠ 0))
        ["abc"] [] [(1, 2)]).2 1 = none
  ∧ ∀ b ∈ NgramIndice.cursorAllBatches optsFixed (fun k => decide (k ≠ 0)) ["abc"]
        [[(1, 1)]]
        (NgramIndice.cursorStep optsFixed (fun k => decide (k ≠ 0)) ["abc"] [] [(1, 2)]).2,
      (1 : Int) ∉ b := by
  have h := C4_no_reemission optsFixed (fun k => decide (k ≠ 0)) ["abc"] [] [(1, 2)]
    [[(1, 1)]] 1 (by unfold JsMap.KeysNodup; decide) (by decide) (by decide)
  exact ⟨by decide, h.1, h.2⟩


namespace NgramIndice

variable {K : Type} [DecidableEq K]

omit [DecidableEq K] in
theorem chunksOf_flatten (c : Nat) (hc : 1 ≤ c) (l : List K) :
    (chunksOf c l).flatten = l := by
  suffices h : ∀ (n : Nat) (l : List K), l.length ≤ n → (chunksOf c l).flatten = l from
    h l.length l le_rfl
  intro n
  induction n with
  | zero =>
    intro l hl
    rw [Nat.le_zero, List.length_eq_zero] at hl
    subst hl
    simp [chunksOf]
  | succ n ih =>
    intro l hl
    match l with
    | [] => simp [chunksOf]
    | x :: xs =>
      rw [chunksOf]
      have hc0 : ¬ c = 0 := by omega
      simp only [hc0, dif_neg, not_false_iff, List.flatten_cons]
      rw [ih ((x :: xs).drop c) (by simp only [List.length_drop, List.length_cons] at hl ⊢; omega)]
      exact List.take_append_drop c (x :: xs)

omit [DecidableEq K] in
theorem chunksOf_mem_length (c : Nat) (l : List K) (p : List K)
    (hp : p ∈ chunksOf c l) : p.length ≤ max c l.length := by
  suffices h : ∀ (n : Nat) (l : List K), l.length ≤ n → ∀ p ∈ chunksOf c l,
      p.length ≤ max c l.length from h l.length l le_rfl p hp
  intro n
  induction n with
  | zero =>
    intro l hl p hp
    rw [Nat.le_zero, List.length_eq_zero] at hl
    subst hl
    simp [chunksOf] at hp
  | succ n ih =>
    intro l hl p hp
    match l with
    | [] => simp [chunksOf] at hp
    | x :: xs =>
      rw [chunksOf] at hp
      by_cases hc0 : c = 0
      · simp only [hc0, dif_pos] at hp
        rw [List.mem_singleton] at hp
        subst hp
        simp
      · simp only [hc0, dif_neg, not_false_iff, List.mem_cons] at hp
        rcases hp with hp | hp
        · subst hp
          simp [List.length_take]
        · have := ih ((x :: xs).drop c) (by simp only [List.length_drop, List.length_cons] at hl ⊢; omega) p hp
          have hd : ((x :: xs).drop c).length ≤ (x :: xs).length := by
            simp [List.length_drop]
          omega

omit [DecidableEq K] in
theorem chunksOf_mem_length_le (c : Nat) (hc : 1 ≤ c) (l : List K) (p : List K)
    (hp : p ∈ chunksOf c l) : p.length ≤ c := by
  suffices h : ∀ (n : Nat) (l : List K), l.length ≤ n → ∀ p ∈ chunksOf c l,
      p.length ≤ c from h l.length l le_rfl p hp
  intro n
  induction n with
  | zero =>
    intro l hl p hp
    rw [Nat.le_zero, List.length_eq_zero] at hl
    subst hl
    simp [chunksOf] at hp
  | succ n ih =>
    intro l hl p hp
    match l with
    | [] => simp [chunksOf] at hp
    | x :: xs =>
      rw [chunksOf] at hp
      have hc0 : ¬ c = 0 := by omega
      simp only [hc0, dif_neg, not_false_iff, List.mem_cons] at hp
      rcases hp with hp | hp
      · subst hp
        simp [List.length_take]
      · exact ih ((x :: xs).drop c) (by simp only [List.length_drop, List.length_cons] at hl ⊢; omega) p hp

theorem mem_insertSorted (a b : String) (l : List String) :
    a ∈ insertSorted b l ↔ a = b ∨ a ∈ l := by
  induction l with
  | nil => simp [insertSorted]
  | cons x xs ih =>
    unfold insertSorted
    by_cases h : b < x
    · simp [h, List.mem_cons]
    · simp [h, List.mem_cons, ih]
      tauto

theorem nodup_insertSorted (b : String) (l : List String)
    (hb : b ∉ l) (hl : l.Nodup) : (insertSorted b l).Nodup := by
  induction l with
  | nil => simp [insertSorted]
  | cons x xs ih =>
    rw [List.mem_cons] at hb
    push_neg at hb
    rw [List.nodup_cons] at hl
    unfold insertSorted
    by_cases h : b < x
    · rw [if_pos h, List.nodup_cons, List.nodup_cons]
      refine ⟨?_, hl⟩
      rw [List.mem_cons]
      push_neg
      exact ⟨fun hc => hb.1 hc, hb.2⟩
    · rw [if_neg h, List.nodup_cons]
      refine ⟨?_, ih hb.2 hl.2⟩
      rw [mem_insertSorted]
      push_neg
      exact ⟨fun hc => hb.1 hc.symm, hl.1⟩

theorem mem_sortKeys (a : String) (l : List String) :
    a ∈ sortKeys l ↔ a ∈ l := by
  induction l with
  | nil => simp [sortKeys]
  | cons x xs ih =>
    unfold sortKeys at ih ⊢
    rw [List.foldr_cons, mem_insertSorted, ih, List.mem_cons]

theorem nodup_sortKeys (l : List String) (hl : l.Nodup) : (sortKeys l).Nodup := by
  induction l with
  | nil => simp [sortKeys]
  | cons x xs ih =>
    rw [List.nodup_cons] at hl
    unfold sortKeys
    rw [List.foldr_cons]
    apply nodup_insertSorted
    · rw [show List.foldr insertSorted [] xs = sortKeys xs from rfl, mem_sortKeys]
      exact hl.1
    · exact ih hl.2

end NgramIndice

namespace NgramIndice

variable {K : Type}

theorem lookD_nil (t : String) : lookD ([] : List (String × List K)) t = [] := rfl

theorem get_none_of_not_mem_keys (m : List (String × List K)) (t : String)
    (h : t ∉ JsMap.keys m) : JsMap.get m t = none := by
  cases hg : JsMap.get m t with
  | none => rfl
  | some v =>
    exfalso
    exact h ((JsMap.get_isSome_iff_mem_keys m t).mp (by rw [hg]; rfl))

theorem lookD_append (m m' : List (String × List K)) (t : String) :
    lookD (m ++ m') t
      = match JsMap.get m t with
        | some v => v
        | none => lookD m' t := by
  unfold lookD
  rw [JsMap.get_append]
  cases JsMap.get m t <;> rfl

theorem entryLen_append (m m' : List (String × List K)) :
    entryLen (m ++ m') = entryLen m + entryLen m' := by
  unfold entryLen
  rw [List.map_append, List.sum_append]

theorem eq_nil_of_entryLen_zero (m : List (String × List K))
    (h : entryLen m = 0) (hne : ∀ e ∈ m, e.2 ≠ []) : m = [] := by
  cases m with
  | nil => rfl
  | cons e es =>
    exfalso
    unfold entryLen at h
    simp only [List.map_cons, List.sum_cons] at h
    have : e.2 ≠ [] := hne e (by simp)
    have : e.2.length ≠ 0 := fun hc => this (List.length_eq_zero.mp hc)
    omega

theorem perTok_append (a b : List (List (String × List K))) (t : String) :
    perTok (a ++ b) t = perTok a t ++ perTok b t := by
  unfold perTok
  rw [List.map_append, List.flatten_append]

theorem perTok_singleton (sh : List (String × List K)) (t : String) :
    perTok [sh] t = lookD sh t := by
  unfold perTok
  simp

theorem perTok_nil (t : String) : perTok ([] : List (List (String × List K))) t = [] := rfl

/-- The per-token contribution of the piece shards built from one token. -/
theorem perTok_pieces (t₀ t : String) (pieces : List (List K)) :
    perTok (pieces.map (fun p => [(t₀, p)])) t
      = if t = t₀ then pieces.flatten else [] := by
  induction pieces with
  | nil => by_cases h : t = t₀ <;> simp [perTok, h]
  | cons p ps ih =>
    rw [show (p :: ps).map (fun p => [(t₀, p)]) = [(t₀, p)] :: ps.map (fun p => [(t₀, p)]) from rfl]
    rw [show perTok ([(t₀, p)] :: ps.map (fun p => [(t₀, p)])) t
        = lookD [(t₀, p)] t ++ perTok (ps.map (fun p => [(t₀, p)])) t from by
      unfold perTok; simp]
    rw [ih]
    by_cases h : t = t₀
    · subst h
      simp [lookD, JsMap.get]
    · have h' : ¬ (t₀ = t) := fun hh => h hh.symm
      simp [lookD, JsMap.get, h, h']

/-- One `spread` step: the per-token effect, the state invariants, and the
sizes of the shards it emits. -/
theorem spreadStep_main (csize : Nat) (hc : 1 ≤ csize)
    (shards : List (List (String × List K))) (size : Nat) (map : List (String × List K))
    (t₀ : String) (l₀ : List K)
    (hsz : size = entryLen map) (hle : size ≤ csize)
    (hmapne : ∀ e ∈ map, e.2 ≠ []) (hl₀ : l₀ ≠ [])
    (hfresh : JsMap.get map t₀ = none) :
    (∀ t, perTok (spreadFinish (spreadStep csize (shards, size, map) (t₀, l₀))) t
        = perTok (spreadFinish (shards, size, map)) t ++ (if t = t₀ then l₀ else []))
  ∧ (spreadStep csize (shards, size, map) (t₀, l₀)).2.1
      = entryLen (spreadStep csize (shards, size, map) (t₀, l₀)).2.2
  ∧ (spreadStep csize (shards, size, map) (t₀, l₀)).2.1 ≤ csize
  ∧ (∀ e ∈ (spreadStep csize (shards, size, map) (t₀, l₀)).2.2, e.2 ≠ [])
  ∧ (∀ t, JsMap.get map t = none → t ≠ t₀ →
      JsMap.get (spreadStep csize (shards, size, map) (t₀, l₀)).2.2 t = none)
  ∧ (∀ sh ∈ (spreadStep csize (shards, size, map) (t₀, l₀)).1,
      sh ∈ shards ∨ entryLen sh ≤ csize) := by
  have hl₀len : 1 ≤ l₀.length := by
    cases l₀ with
    | nil => exact absurd rfl hl₀
    | cons a as => simp
  have hnm : t₀ ∉ JsMap.keys map := by
    intro hm
    have := (JsMap.get_isSome_iff_mem_keys map t₀).mpr hm
    rw [hfresh] at this
    simp at this
  have hset : JsMap.set map t₀ l₀ = map ++ [(t₀, l₀)] :=
    JsMap.set_eq_append_of_not_mem map t₀ l₀ hnm
  have hsetf : ∀ v : List K, JsMap.set map t₀ v = map ++ [(t₀, v)] := fun v =>
    JsMap.set_eq_append_of_not_mem map t₀ v hnm
  by_cases hacc : size + l₀.length ≤ csize
  · -- accumulate branch
    have hstep : spreadStep csize (shards, size, map) (t₀, l₀)
        = (shards, size + l₀.length, map ++ [(t₀, l₀)]) := by
      unfold spreadStep
      simp only [hacc, if_true, hset]
    rw [hstep]
    refine ⟨?_, ?_, ?_, ?_, ?_, ?_⟩
    · intro t
      have hne0 : ¬ (size + l₀.length = 0) := by omega
      rw [show spreadFinish (shards, size + l₀.length, map ++ [(t₀, l₀)])
          = shards ++ [map ++ [(t₀, l₀)]] from by simp [spreadFinish, hne0]]
      rw [perTok_append, perTok_singleton, lookD_append]
      by_cases hsz0 : size = 0
      · have hmap : map = [] :=
          eq_nil_of_entryLen_zero map (by omega) hmapne
        subst hmap
        subst hsz0
        rw [show spreadFinish (shards, 0, ([] : List (String × List K)))
            = shards from by simp [spreadFinish]]
        simp only [JsMap.get_nil]
        by_cases ht : t = t₀
        · subst ht
          simp [lookD, JsMap.get]
        · have ht' : ¬ (t₀ = t) := fun hh => ht hh.symm
          rw [if_neg ht]
          simp [lookD, JsMap.get, ht']
      · rw [show spreadFinish (shards, size, map) = shards ++ [map] from by
          simp [spreadFinish, hsz0]]
        rw [perTok_append, perTok_singleton]
        cases hg : JsMap.get map t with
        | some v =>
          have ht : ¬ (t = t₀) := by
            intro hh
            rw [hh, hfresh] at hg
            cases hg
          simp only [ht, if_false]
          rw [show lookD map t = v from by unfold lookD; rw [hg]; rfl]
          simp
        | none =>
          rw [show lookD map t = [] from by unfold lookD; rw [hg]; rfl]
          by_cases ht : t = t₀
          · subst ht
            simp [lookD, JsMap.get]
          · have ht' : ¬ (t₀ = t) := fun hh => ht hh.symm
            rw [if_neg ht]
            simp [lookD, JsMap.get, ht']
    · simp only
      rw [entryLen_append, ← hsz]
      simp [entryLen]
    · simpa using hacc
    · intro e he
      rcases List.mem_append.mp he with h | h
      · exact hmapne e h
      · rw [List.mem_singleton] at h
        subst h
        exact hl₀
    · intro t hnone hne
      simp only
      rw [JsMap.get_append, hnone]
      have hne' : ¬ (t₀ = t) := fun hh => hne hh.symm
      simp [JsMap.get, hne']
    · intro sh hsh
      exact Or.inl hsh
  · -- overflow branch
    have hstep : spreadStep csize (shards, size, map) (t₀, l₀)
        = (shards ++ [map ++ [(t₀, l₀.take (csize - size))]]
            ++ (chunksOf csize (l₀.drop (csize - size))).map (fun p => [(t₀, p)]), 0, []) := by
      unfold spreadStep
      simp only [hacc, if_false]
      rw [hsetf]
    rw [hstep]
    have hdropne : l₀.drop (csize - size) ≠ [] := by
      intro hc'
      have := List.length_drop (csize - size) l₀
      rw [hc'] at this
      simp at this
      omega
    refine ⟨?_, by simp [entryLen], by simp, by simp, by simp [JsMap.get], ?_⟩
    · intro t
      have hfl : (chunksOf csize (l₀.drop (csize - size))).flatten = l₀.drop (csize - size) :=
        chunksOf_flatten csize hc _
      rw [show spreadFinish
          (shards ++ [map ++ [(t₀, l₀.take (csize - size))]]
            ++ (chunksOf csize (l₀.drop (csize - size))).map (fun p => [(t₀, p)]), 0,
            ([] : List (String × List K)))
          = shards ++ [map ++ [(t₀, l₀.take (csize - size))]]
            ++ (chunksOf csize (l₀.drop (csize - size))).map (fun p => [(t₀, p)]) from by
        simp [spreadFinish]]
      rw [perTok_append, perTok_append, perTok_singleton, perTok_pieces, lookD_append, hfl]
      by_cases hsz0 : size = 0
      · have hmap : map = [] :=
          eq_nil_of_entryLen_zero map (by omega) hmapne
        subst hmap
        subst hsz0
        rw [show spreadFinish (shards, 0, ([] : List (String × List K)))
            = shards from by simp [spreadFinish]]
        simp only [JsMap.get_nil]
        by_cases ht : t = t₀
        · subst ht
          rw [show lookD [(t, l₀.take (csize - 0))] t = l₀.take (csize - 0) from by
            simp [lookD, JsMap.get]]
          simp [List.take_append_drop]
        · have ht' : ¬ (t₀ = t) := fun hh => ht hh.symm
          simp only [ht, if_false]
          rw [show lookD [(t₀, l₀.take (csize - 0))] t = [] from by
            simp [lookD, JsMap.get, ht']]
          simp
      · rw [show spreadFinish (shards, size, map) = shards ++ [map] from by
          simp [spreadFinish, hsz0]]
        rw [perTok_append, perTok_singleton]
        cases hg : JsMap.get map t with
        | some v =>
          have ht : ¬ (t = t₀) := by
            intro hh
            rw [hh, hfresh] at hg
            cases hg
          simp only [ht, if_false]
          rw [show lookD map t = v from by unfold lookD; rw [hg]; rfl]
        | none =>
          rw [show lookD map t = [] from by unfold lookD; rw [hg]; rfl]
          by_cases ht : t = t₀
          · subst ht
            rw [show lookD [(t, l₀.take (csize - size))] t = l₀.take (csize - size) from by
              simp [lookD, JsMap.get]]
            simp [List.take_append_drop]
          · have ht' : ¬ (t₀ = t) := fun hh => ht hh.symm
            simp only [ht, if_false]
            rw [show lookD [(t₀, l₀.take (csize - size))] t = [] from by
              simp [lookD, JsMap.get, ht']]
    · intro sh hsh
      rcases List.mem_append.mp hsh with hsh | hsh
      · rcases List.mem_append.mp hsh with hsh | hsh
        · exact Or.inl hsh
        · rw [List.mem_singleton] at hsh
          subst hsh
          right
          rw [entryLen_append]
          have htk : (l₀.take (csize - size)).length = csize - size := by
            rw [List.length_take]
            omega
          rw [show entryLen [(t₀, l₀.take (csize - size))] = (l₀.take (csize - size)).length from by
            simp [entryLen]]
          omega
      · right
        rw [List.mem_map] at hsh
        obtain ⟨p, hp, hsh⟩ := hsh
        subst hsh
        have := chunksOf_mem_length_le csize hc _ p hp
        simp only [entryLen, List.map_cons, List.map_nil, List.sum_cons, List.sum_nil]
        omega

end NgramIndice

namespace NgramIndice

variable {K : Type}

/-- The `spread` token walk, folded: the per-token union of everything it
emits (after the final flush) is the walked entries' own lookup, and every
emitted shard respects the budget. -/
theorem spread_fold_main (csize : Nat) (hc : 1 ≤ csize) :
    ∀ (es : List (String × List K)) (shards : List (List (String × List K)))
      (size : Nat) (map : List (String × List K)),
      size = entryLen map → size ≤ csize →
      (∀ e ∈ map, e.2 ≠ []) →
      (∀ e ∈ es, e.2 ≠ []) →
      (es.map (·.1)).Nodup →
      (∀ e ∈ es, JsMap.get map e.1 = none) →
      (∀ t, perTok (spreadFinish (es.foldl (spreadStep csize) (shards, size, map))) t
          = perTok (spreadFinish (shards, size, map)) t ++ lookD es t)
    ∧ (∀ sh ∈ (es.foldl (spreadStep csize) (shards, size, map)).1,
        sh ∈ shards ∨ entryLen sh ≤ csize)
    ∧ (es.foldl (spreadStep csize) (shards, size, map)).2.1
        = entryLen (es.foldl (spreadStep csize) (shards, size, map)).2.2
    ∧ (es.foldl (spreadStep csize) (shards, size, map)).2.1 ≤ csize
    ∧ (∀ e ∈ (es.foldl (spreadStep csize) (shards, size, map)).2.2, e.2 ≠ []) := by
  intro es
  induction es with
  | nil =>
    intro shards size map hsz hle hmapne _ _ _
    refine ⟨?_, ?_, hsz, hle, hmapne⟩
    · intro t
      simp [lookD, JsMap.get]
    · intro sh hsh
      exact Or.inl hsh
  | cons e rest ih =>
    intro shards size map hsz hle hmapne hesne hnd hfresh
    obtain ⟨t₀, l₀⟩ := e
    have hl₀ : l₀ ≠ [] := hesne (t₀, l₀) (by simp)
    have hfresh0 : JsMap.get map t₀ = none := hfresh (t₀, l₀) (by simp)
    have hstep := spreadStep_main csize hc shards size map t₀ l₀ hsz hle hmapne hl₀ hfresh0
    have hndr : (rest.map (·.1)).Nodup := by
      simp only [List.map_cons, List.nodup_cons] at hnd
      exact hnd.2
    have ht₀r : ∀ e ∈ rest, e.1 ≠ t₀ := by
      intro e he hc'
      simp only [List.map_cons, List.nodup_cons] at hnd
      exact hnd.1 (hc' ▸ List.mem_map_of_mem (fun x : String × List K => x.1) he)
    have hfresh' : ∀ e ∈ rest,
        JsMap.get (spreadStep csize (shards, size, map) (t₀, l₀)).2.2 e.1 = none := by
      intro e he
      exact hstep.2.2.2.2.1 e.1 (hfresh e (List.mem_cons_of_mem _ he)) (ht₀r e he)
    obtain ⟨sh', sz', mp'⟩ :
        ∃ a b c, spreadStep csize (shards, size, map) (t₀, l₀) = (a, b, c) :=
      ⟨_, _, _, rfl⟩
    have hihyp := ih (spreadStep csize (shards, size, map) (t₀, l₀)).1
      (spreadStep csize (shards, size, map) (t₀, l₀)).2.1
      (spreadStep csize (shards, size, map) (t₀, l₀)).2.2
      hstep.2.1 hstep.2.2.1 hstep.2.2.2.1
      (fun e he => hesne e (List.mem_cons_of_mem _ he)) hndr hfresh'
    have hfold : (t₀, l₀) :: rest
        = [(t₀, l₀)] ++ rest := rfl
    refine ⟨?_, ?_, ?_, ?_, ?_⟩
    · intro t
      rw [List.foldl_cons]
      rw [show rest.foldl (spreadStep csize) (spreadStep csize (shards, size, map) (t₀, l₀))
          = rest.foldl (spreadStep csize)
            ((spreadStep csize (shards, size, map) (t₀, l₀)).1,
             (spreadStep csize (shards, size, map) (t₀, l₀)).2.1,
             (spreadStep csize (shards, size, map) (t₀, l₀)).2.2) from by rfl]
      rw [hihyp.1 t, hstep.1 t]
      rw [show lookD ((t₀, l₀) :: rest) t
          = (if t = t₀ then l₀ else []) ++ lookD rest t from ?_]
      · rw [List.append_assoc]
      · by_cases ht : t = t₀
        · subst ht
          have hnone : JsMap.get rest t = none := by
            apply get_none_of_not_mem_keys
            intro hm
            unfold JsMap.keys at hm
            rw [List.mem_map] at hm
            obtain ⟨e, he, hme⟩ := hm
            exact ht₀r e he hme
          unfold lookD
          rw [show JsMap.get ((t, l₀) :: rest) t = some l₀ from by rw [JsMap.get_cons]; simp]
          rw [hnone]
          simp
        · have ht2 : ¬ (t₀ = t) := fun hh => ht hh.symm
          unfold lookD
          rw [show JsMap.get ((t₀, l₀) :: rest) t = JsMap.get rest t from by
            rw [JsMap.get_cons]
            exact if_neg ht2]
          rw [if_neg ht]
          simp
    · intro sh hsh
      rw [List.foldl_cons] at hsh
      rcases hihyp.2.1 sh hsh with h | h
      · rcases hstep.2.2.2.2.2 sh h with h' | h'
        · exact Or.inl h'
        · exact Or.inr h'
      · exact Or.inr h
    · rw [List.foldl_cons]
      exact hihyp.2.2.1
    · rw [List.foldl_cons]
      exact hihyp.2.2.2.1
    · rw [List.foldl_cons]
      exact hihyp.2.2.2.2

end NgramIndice

/-- Lookup in a list of pairs tabulating a function over keys. -/
theorem JsMap.get_tabulate {ν : Type} (ks : List String) (f : String → ν) (t : String) :
    JsMap.get (ks.map (fun u => (u, f u))) t = if t ∈ ks then some (f t) else none := by
  induction ks with
  | nil => simp [JsMap.get]
  | cons x xs ih =>
    rw [List.map_cons, JsMap.get_cons]
    by_cases hx : x = t
    · subst hx
      simp
    · have hx' : ¬ (t = x) := fun hh => hx hh.symm
      simp only [hx, if_false, ih, List.mem_cons, hx', false_or]

/-- An index (reachable through `deserialize`) holding an empty posting list. -/
def badParent : NgramIndice.NgState Int :=
  { indices := [("aa", [1, 2]), ("bb", [])], options := optsFixed }

namespace NgramIndice

variable {K : Type}

/-- C5 counterexample: `spread` drops a token whose posting list is empty.
The index whose map is `{aa ↦ [1,2], bb ↦ []}` (obtainable via
`deserialize`, or as a shard emitted by `spread` itself) spread with
`chunkSize = 1` yields shards for `aa` only: token `bb` is present in the
parent but in no shard, so the union of the shard maps does not have the
same tokens as the parent. -/
theorem C5_counterexample :
    NgramIndice.spread badParent 1 = [[("aa", [1])], [("aa", [2])]]
  ∧ JsMap.get badParent.indices "bb" = some []
  ∧ ((NgramIndice.spread badParent 1).map (fun sh => JsMap.get sh "bb")) = [none, none] := by
  refine ⟨?_, by decide, ?_⟩ <;>
    simp +decide [NgramIndice.spread, NgramIndice.spreadFinish, NgramIndice.sortedEntries,
      NgramIndice.sortKeys, NgramIndice.insertSorted, NgramIndice.spreadStep,
      NgramIndice.chunksOf, JsMap.keys, JsMap.get, JsMap.getD, JsMap.set, badParent]

/-- C5 as amended: for an index whose posting map is well formed (distinct
tokens) and whose posting lists are all nonempty, and any `chunkSize ≥ 1`,
`spread` partitions the posting data exactly — for every token, the
concatenation over all shards of that token's entries equals the parent's
posting list (so tokens, entries and multiplicities are all preserved, each
entry living in exactly one shard) — and no shard holds more than
`chunkSize * 10` entries (indeed no more than `chunkSize`).  With an empty
posting list the token itself can be dropped (see the counterexample). -/
theorem C5_spread_exact (s : NgState K) (csize : Nat) (hc : 1 ≤ csize)
    (hne : ∀ e ∈ s.indices, e.2 ≠ []) (hnd : JsMap.KeysNodup s.indices) :
    (∀ t, perTok (spread s csize) t = lookD s.indices t)
  ∧ (∀ sh ∈ spread s csize, entryLen sh ≤ csize * 10) := by
  have hkeysnd : (JsMap.keys s.indices).Nodup := hnd
  have hsorted : (sortKeys (JsMap.keys s.indices)).Nodup := nodup_sortKeys _ hkeysnd
  have hentnd : ((sortedEntries s).map (·.1)).Nodup := by
    unfold sortedEntries
    rw [List.map_map]
    rw [show ((fun x : String × List K => x.1) ∘ fun t => (t, JsMap.getD s.indices t []))
        = fun t => t from rfl]
    simpa using hsorted
  have hentne : ∀ e ∈ sortedEntries s, e.2 ≠ [] := by
    intro e he
    unfold sortedEntries at he
    rw [List.mem_map] at he
    obtain ⟨u, hu, he⟩ := he
    subst he
    rw [mem_sortKeys] at hu
    have : (JsMap.get s.indices u).isSome := (JsMap.get_isSome_iff_mem_keys _ _).mpr hu
    cases hg : JsMap.get s.indices u with
    | none => rw [hg] at this; simp at this
    | some l =>
      have hmem := JsMap.get_mem s.indices u l hg
      have := hne (u, l) hmem
      simpa [JsMap.getD, hg] using this
  have hmain := spread_fold_main csize hc (sortedEntries s) [] 0 []
    (by simp [entryLen]) (by omega) (by simp) hentne hentnd (by simp [JsMap.get])
  constructor
  · intro t
    have h1 := hmain.1 t
    rw [show spread s csize
        = spreadFinish ((sortedEntries s).foldl (spreadStep csize) ([], 0, [])) from rfl]
    rw [h1]
    rw [show spreadFinish ([], 0, ([] : List (String × List K)))
        = ([] : List (List (String × List K))) from by simp [spreadFinish]]
    rw [perTok_nil, List.nil_append]
    unfold lookD sortedEntries
    rw [JsMap.get_tabulate (sortKeys (JsMap.keys s.indices)) (fun u => JsMap.getD s.indices u []) t]
    by_cases ht : t ∈ sortKeys (JsMap.keys s.indices)
    · simp [ht, JsMap.getD]
    · simp only [ht, if_false]
      rw [mem_sortKeys] at ht
      rw [get_none_of_not_mem_keys s.indices t ht]
  · intro sh hsh
    have hle10 : ∀ n, n ≤ csize → n ≤ csize * 10 := by
      intro n hn
      calc n ≤ csize := hn
        _ = csize * 1 := by omega
        _ ≤ csize * 10 := Nat.mul_le_mul_left csize (by omega)
    unfold spread spreadFinish at hsh
    by_cases hfin : ((sortedEntries s).foldl (spreadStep csize) ([], 0, [])).2.1 ≠ 0
    · rw [if_pos hfin] at hsh
      rcases List.mem_append.mp hsh with h | h
      · rcases hmain.2.1 sh h with h' | h'
        · simp at h'
        · exact hle10 _ h'
      · rw [List.mem_singleton] at h
        subst h
        apply hle10
        rw [← hmain.2.2.1]
        exact hmain.2.2.2.1
    · rw [if_neg hfin] at hsh
      rcases hmain.2.1 sh hsh with h' | h'
      · simp at h'
      · exact hle10 _ h'

end NgramIndice

/-- Witness for C5 at a concrete three-entry index and `chunkSize = 2`. -/
theorem C5_spread_exact_witness :
    NgramIndice.perTok (NgramIndice.spread
        ({ indices := [("abc", [1, 2, 3])], options := optsFixed } : NgramIndice.NgState Int) 2) "abc"
      = NgramIndice.lookD [("abc", [1, 2, 3])] "abc" :=
  (NgramIndice.C5_spread_exact { indices := [("abc", [1, 2, 3])], options := optsFixed } 2
    (by omega) (by decide) (by unfold JsMap.KeysNodup; decide)).1 "abc"

-- ===================================================================
-- C3: the union of cursorAll batches versus findAll
-- ===================================================================

/-- A list with a member is nonempty in the `Bool` sense. -/
theorem list_isEmpty_false_of_mem {α : Type} {l : List α} {a : α} (h : a ∈ l) :
    l.isEmpty = false := by
  cases l with
  | nil => simp at h
  | cons x xs => rfl

namespace JsMap

variable {κ ν : Type} [DecidableEq κ]

/-- Absence after `set`: the set key is always present, every other key keeps
its absence. -/
theorem get_set_none_iff (m : List (κ × ν)) (k a : κ) (v : ν) :
    get (set m k v) a = none ↔ get m a = none ∧ a ≠ k := by
  by_cases h : a = k
  · subst h
    simp
  · rw [get_set_ne m k a v h]
    simp [h]

/-- Deletion only removes entries. -/
theorem mem_del_sub (m : List (κ × ν)) (k : κ) (e : κ × ν) (h : e ∈ del m k) :
    e ∈ m := by
  induction m with
  | nil => simp [del] at h
  | cons x xs ih =>
    by_cases hx : x.1 = k
    · simp only [del, hx, if_true] at h
      exact List.mem_cons_of_mem _ (ih h)
    · simp only [del, hx, if_false, List.mem_cons] at h
      rcases h with h | h
      · exact h ▸ List.mem_cons_self _ _
      · exact List.mem_cons_of_mem _ (ih h)

/-- The delete fold only removes entries. -/
theorem mem_foldl_del_sub (l : List κ) (m : List (κ × ν)) (e : κ × ν)
    (h : e ∈ l.foldl del m) : e ∈ m := by
  induction l generalizing m with
  | nil => exact h
  | cons x xs ih =>
    rw [List.foldl_cons] at h
    exact mem_del_sub m x e (ih (del m x) h)

/-- Keys outside the deletion list keep their values across the fold. -/
theorem get_foldl_del_not_mem (l : List κ) (m : List (κ × ν)) (k : κ)
    (h : k ∉ l) : get (l.foldl del m) k = get m k := by
  induction l generalizing m with
  | nil => rfl
  | cons x xs ih =>
    have hx : k ≠ x := by
      intro hc
      exact h (by rw [hc]; exact List.mem_cons_self _ _)
    have hxs : k ∉ xs := fun hc => h (List.mem_cons_of_mem _ hc)
    rw [List.foldl_cons, ih (del m x) hxs, get_del_ne m x k hx]

end JsMap

namespace NgramIndice

variable {K : Type} [DecidableEq K]

/-- Absence after merging one shard result: a key is absent iff it was absent
before and does not occur in the merged result. -/
theorem get_mergeWeights_none_iff (cw w : List (K × Nat)) (k : K) :
    JsMap.get (mergeWeights cw w) k = none ↔
      JsMap.get cw k = none ∧ k ∉ w.map (·.1) := by
  induction w generalizing cw with
  | nil => simp [mergeWeights]
  | cons e es ih =>
    rw [show mergeWeights cw (e :: es)
        = mergeWeights (JsMap.set cw e.1 (e.2 + JsMap.getD cw e.1 0)) es from rfl]
    rw [ih, JsMap.get_set_none_iff]
    simp only [List.map_cons, List.mem_cons, not_or]
    tauto

/-- A key that occurs nowhere in a weight map contributes zero weight. -/
theorem entW_eq_zero_of_not_mem (w : List (K × Nat)) (k : K)
    (h : k ∉ w.map (·.1)) : entW w k = 0 := by
  induction w with
  | nil => rfl
  | cons e es ih =>
    simp only [List.map_cons, List.mem_cons, not_or] at h
    have he : ¬ (e.1 = k) := fun hc => h.1 hc.symm
    rw [show entW (e :: es) k = entW es k from by simp [entW, he]]
    exact ih h.2

/-- The merge step of `findAll` and the merge step of `cursorAll` agree: the
two summands are just written in the opposite order. -/
theorem combineInto_eq_mergeWeights (m w : List (K × Nat)) :
    combineInto m w = mergeWeights m w := by
  induction w generalizing m with
  | nil => rfl
  | cons e es ih =>
    rw [show combineInto m (e :: es)
        = combineInto (JsMap.set m e.1 (JsMap.getD m e.1 0 + e.2)) es from rfl]
    rw [show mergeWeights m (e :: es)
        = mergeWeights (JsMap.set m e.1 (e.2 + JsMap.getD m e.1 0)) es from rfl]
    rw [Nat.add_comm (JsMap.getD m e.1 0) e.2]
    exact ih _

/-- The weight-merging fold computes the combined weight totals. -/
theorem getD_foldl_mergeWeights (ws : List (List (K × Nat))) (cw : List (K × Nat)) (k : K) :
    JsMap.getD (ws.foldl mergeWeights cw) k 0 = JsMap.getD cw k 0 + wTotal ws k := by
  induction ws generalizing cw with
  | nil => simp [wTotal]
  | cons w rest ih =>
    rw [List.foldl_cons, ih, getD_mergeWeights]
    have hw2 : wTotal (w :: rest) k = entW w k + wTotal rest k := by simp [wTotal]
    omega

/-- Absence after the whole fold: absent initially and in every summand. -/
theorem get_foldl_mergeWeights_none_iff (ws : List (List (K × Nat)))
    (cw : List (K × Nat)) (k : K) :
    JsMap.get (ws.foldl mergeWeights cw) k = none ↔
      JsMap.get cw k = none ∧ ∀ w ∈ ws, k ∉ w.map (·.1) := by
  induction ws generalizing cw with
  | nil => simp
  | cons w rest ih =>
    rw [List.foldl_cons, ih, get_mergeWeights_none_iff]
    simp only [List.mem_cons]
    constructor
    · rintro ⟨⟨h1, h2⟩, h3⟩
      refine ⟨h1, ?_⟩
      intro w2 hw
      rcases hw with hw | hw
      · rw [hw]
        exact h2
      · exact h3 w2 hw
    · rintro ⟨h1, h2⟩
      exact ⟨⟨h1, h2 w (Or.inl rfl)⟩, fun w2 hw => h2 w2 (Or.inr hw)⟩

/-- The weight-merging fold preserves well-formedness of the running map. -/
theorem nodup_foldl_mergeWeights (ws : List (List (K × Nat))) (cw : List (K × Nat))
    (h : JsMap.KeysNodup cw) : JsMap.KeysNodup (ws.foldl mergeWeights cw) := by
  induction ws generalizing cw with
  | nil => exact h
  | cons w rest ih => exact ih _ (nodup_mergeWeights cw w h)

/-- Membership in `findAll`: presence in some shard result together with the
combined weight reaching the threshold. -/
theorem findAll_mem (o : NgOptions K) (shards : List (List (String × List K)))
    (value : String ⊕ List String) (k : K) :
    k ∈ findAll o shards value ↔
      ((∃ w ∈ shards.map (fun sh => preFilterPure sh (tokenizrMulti o value)),
          k ∈ w.map (·.1)) ∧
        getLimit o.actuationLimitAuto (tokenizrMulti o value).length o.actuationLimit
          ≤ ((wTotal (shards.map (fun sh => preFilterPure sh (tokenizrMulti o value))) k : ℕ) : ℚ)) := by
  have hfold : ∀ (ws : List (List (K × Nat))) (m : List (K × Nat)),
      ws.foldl combineInto m = ws.foldl mergeWeights m := by
    intro ws
    induction ws with
    | nil => intro m; rfl
    | cons w rest ih =>
      intro m
      rw [List.foldl_cons, List.foldl_cons, combineInto_eq_mergeWeights]
      exact ih _
  have hdef : findAll o shards value
      = postFilter o ((shards.map (fun sh => preFilterPure sh (tokenizrMulti o value))).foldl
          combineInto []) (tokenizrMulti o value) := rfl
  rw [hdef, hfold]
  generalize shards.map (fun sh => preFilterPure sh (tokenizrMulti o value)) = ws
  generalize tokenizrMulti o value = tokens
  have hnd : JsMap.KeysNodup (ws.foldl mergeWeights ([] : List (K × Nat))) :=
    nodup_foldl_mergeWeights ws [] (by simp [JsMap.KeysNodup])
  rw [postFilter_mem]
  constructor
  · rintro ⟨e, he, hek, hth⟩
    have hget : JsMap.get (ws.foldl mergeWeights ([] : List (K × Nat))) k = some e.2 := by
      rw [← hek]
      exact JsMap.get_of_mem_nodup _ e.1 e.2 hnd (by cases e; exact he)
    constructor
    · by_contra hc
      push_neg at hc
      have hnone : JsMap.get (ws.foldl mergeWeights ([] : List (K × Nat))) k = none :=
        (get_foldl_mergeWeights_none_iff ws [] k).mpr ⟨rfl, hc⟩
      rw [hget] at hnone
      exact Option.noConfusion hnone
    · have hgd : JsMap.getD (ws.foldl mergeWeights ([] : List (K × Nat))) k 0 = e.2 := by
        unfold JsMap.getD
        rw [hget]
        rfl
      have hgd2 := getD_foldl_mergeWeights ws ([] : List (K × Nat)) k
      rw [hgd] at hgd2
      have he2 : e.2 = wTotal ws k := by
        have h0 : JsMap.getD ([] : List (K × Nat)) k 0 = 0 := rfl
        rw [h0] at hgd2
        omega
      rw [← he2]
      exact hth
  · rintro ⟨hpres, hth⟩
    have hne : ¬ (JsMap.get (ws.foldl mergeWeights ([] : List (K × Nat))) k = none) := by
      rw [get_foldl_mergeWeights_none_iff]
      rintro ⟨h1, h2⟩
      obtain ⟨w, hw, hkw⟩ := hpres
      exact h2 w hw hkw
    cases hc : JsMap.get (ws.foldl mergeWeights ([] : List (K × Nat))) k with
    | none => exact absurd hc hne
    | some c =>
      have hmem : (k, c) ∈ ws.foldl mergeWeights ([] : List (K × Nat)) :=
        JsMap.get_mem _ k c hc
      refine ⟨(k, c), hmem, rfl, ?_⟩
      have hgd : JsMap.getD (ws.foldl mergeWeights ([] : List (K × Nat))) k 0 = c := by
        unfold JsMap.getD
        rw [hc]
        rfl
      have hgd2 := getD_foldl_mergeWeights ws ([] : List (K × Nat)) k
      rw [hgd] at hgd2
      have hcw : c = wTotal ws k := by
        have h0 : JsMap.getD ([] : List (K × Nat)) k 0 = 0 := rfl
        rw [h0] at hgd2
        omega
      show getLimit o.actuationLimitAuto tokens.length o.actuationLimit ≤ ((c : ℕ) : ℚ)
      rw [hcw]
      exact hth

/-- Soundness of the cursor loop: a key appearing in some batch is JS-truthy,
its accumulated weight reaches the threshold, and it occurs in the running
map or in one of the remaining shard results. -/
theorem cursor_emitted_sound (o : NgOptions K) (truthy : K → Bool) (tokens : List String) :
    ∀ (ws : List (List (K × Nat))) (cw : List (K × Nat)) (k : K),
      JsMap.KeysNodup cw →
      (∃ b ∈ cursorAllBatches o truthy tokens ws cw, k ∈ b) →
      truthy k = true ∧
      getLimit o.actuationLimitAuto tokens.length o.actuationLimit
        ≤ ((JsMap.getD cw k 0 : ℕ) : ℚ) + ((wTotal ws k : ℕ) : ℚ) ∧
      ((∃ w ∈ ws, k ∈ w.map (·.1)) ∨ ¬ (JsMap.get cw k = none)) := by
  intro ws
  induction ws with
  | nil =>
    intro cw k _ hb
    obtain ⟨b, hb, _⟩ := hb
    simp [cursorAllBatches] at hb
  | cons w rest ih =>
    intro cw k hnd hb
    have hnd1 : JsMap.KeysNodup (mergeWeights cw w) := nodup_mergeWeights cw w hnd
    have hw2 : wTotal (w :: rest) k = entW w k + wTotal rest k := by simp [wTotal]
    have htail : (∃ b ∈ cursorAllBatches o truthy tokens rest
          (cursorStep o truthy tokens cw w).2, k ∈ b) →
        truthy k = true ∧
        getLimit o.actuationLimitAuto tokens.length o.actuationLimit
          ≤ ((JsMap.getD cw k 0 : ℕ) : ℚ) + ((wTotal (w :: rest) k : ℕ) : ℚ) ∧
        ((∃ w2 ∈ w :: rest, k ∈ w2.map (·.1)) ∨ ¬ (JsMap.get cw k = none)) := by
      intro hb2
      have hnd2 : JsMap.KeysNodup (cursorStep o truthy tokens cw w).2 := by
        unfold cursorStep
        exact JsMap.nodup_foldl_del _ _ hnd1
      obtain ⟨htr, hθ, hpres⟩ := ih (cursorStep o truthy tokens cw w).2 k hnd2 hb2
      refine ⟨htr, ?_, ?_⟩
      · have hd : JsMap.getD (cursorStep o truthy tokens cw w).2 k 0
            ≤ JsMap.getD cw k 0 + entW w k := by
          unfold cursorStep
          simp only
          rcases JsMap.get_foldl_del_cases (postFilter o (mergeWeights cw w) tokens)
              (mergeWeights cw w) k with h | h
          · unfold JsMap.getD
            rw [h]
            simp
          · unfold JsMap.getD
            rw [h]
            have hg := getD_mergeWeights cw w k
            unfold JsMap.getD at hg
            omega
        have hq : ((JsMap.getD (cursorStep o truthy tokens cw w).2 k 0 : ℕ) : ℚ)
            ≤ ((JsMap.getD cw k 0 : ℕ) : ℚ) + ((entW w k : ℕ) : ℚ) := by exact_mod_cast hd
        have hwq : ((wTotal (w :: rest) k : ℕ) : ℚ)
            = ((entW w k : ℕ) : ℚ) + ((wTotal rest k : ℕ) : ℚ) := by exact_mod_cast hw2
        rw [hwq]
        linarith
      · rcases hpres with ⟨w2, hw21, hw22⟩ | hne
        · exact Or.inl ⟨w2, List.mem_cons_of_mem _ hw21, hw22⟩
        · have hne1 : ¬ (JsMap.get (mergeWeights cw w) k = none) := by
            intro hc
            apply hne
            unfold cursorStep
            simp only
            exact JsMap.get_foldl_del_none _ _ _ hc
          rw [get_mergeWeights_none_iff] at hne1
          push_neg at hne1
          by_cases hcw : JsMap.get cw k = none
          · exact Or.inl ⟨w, List.mem_cons_self _ _, hne1 hcw⟩
          · exact Or.inr hcw
    unfold cursorAllBatches at hb
    by_cases hempty : (cursorStep o truthy tokens cw w).1.isEmpty
    · simp only [hempty, if_true] at hb
      exact htail hb
    · simp only [hempty, Bool.false_eq_true, if_false] at hb
      obtain ⟨b, hbmem, hkb⟩ := hb
      rcases List.mem_cons.mp hbmem with hbb | hbb
      · subst hbb
        unfold cursorStep at hkb
        simp only [List.mem_reverse, List.mem_filter] at hkb
        obtain ⟨hkem, hkt⟩ := hkb
        rw [postFilter_mem] at hkem
        obtain ⟨e, he, hek, hth⟩ := hkem
        have hget : JsMap.get (mergeWeights cw w) k = some e.2 := by
          rw [← hek]
          exact JsMap.get_of_mem_nodup _ e.1 e.2 hnd1 (by cases e; exact he)
        refine ⟨hkt, ?_, ?_⟩
        · have hgd : JsMap.getD (mergeWeights cw w) k 0 = e.2 := by
            unfold JsMap.getD
            rw [hget]
            rfl
          have hsum := getD_mergeWeights cw w k
          rw [hgd] at hsum
          have h1 : e.2 ≤ JsMap.getD cw k 0 + wTotal (w :: rest) k := by
            rw [hw2]
            omega
          have h2 : (e.2 : ℚ)
              ≤ ((JsMap.getD cw k 0 : ℕ) : ℚ) + ((wTotal (w :: rest) k : ℕ) : ℚ) := by
            exact_mod_cast h1
          linarith
        · have hne1 : ¬ (JsMap.get (mergeWeights cw w) k = none) := by
            rw [hget]
            simp
          rw [get_mergeWeights_none_iff] at hne1
          push_neg at hne1
          by_cases hcw : JsMap.get cw k = none
          · exact Or.inl ⟨w, List.mem_cons_self _ _, hne1 hcw⟩
          · exact Or.inr hcw
      · exact htail ⟨b, hbb, hkb⟩

/-- Completeness of the cursor loop: a JS-truthy key, present in the running
map or in some remaining shard result, whose accumulated weight reaches the
threshold, is emitted in some batch — provided every weight still sitting in
the running map is below the threshold (which holds initially for the empty
map and is preserved by every step). -/
theorem cursor_emitted_complete (o : NgOptions K) (truthy : K → Bool) (tokens : List String) :
    ∀ (ws : List (List (K × Nat))) (cw : List (K × Nat)) (k : K),
      JsMap.KeysNodup cw →
      (∀ e ∈ cw, ((e.2 : ℕ) : ℚ)
          < getLimit o.actuationLimitAuto tokens.length o.actuationLimit) →
      truthy k = true →
      ((∃ w ∈ ws, k ∈ w.map (·.1)) ∨ ¬ (JsMap.get cw k = none)) →
      getLimit o.actuationLimitAuto tokens.length o.actuationLimit
        ≤ ((JsMap.getD cw k 0 : ℕ) : ℚ) + ((wTotal ws k : ℕ) : ℚ) →
      ∃ b ∈ cursorAllBatches o truthy tokens ws cw, k ∈ b := by
  intro ws
  induction ws with
  | nil =>
    intro cw k _ hres _ hpres hθ
    exfalso
    rcases hpres with ⟨w, hw, _⟩ | hne
    · simp at hw
    · cases hc : JsMap.get cw k with
      | none => exact hne hc
      | some c =>
        have hmem : (k, c) ∈ cw := JsMap.get_mem cw k c hc
        have hlt : ((c : ℕ) : ℚ)
            < getLimit o.actuationLimitAuto tokens.length o.actuationLimit :=
          hres (k, c) hmem
        have hgd : JsMap.getD cw k 0 = c := by
          unfold JsMap.getD
          rw [hc]
          rfl
        rw [hgd] at hθ
        have h0 : ((wTotal ([] : List (List (K × Nat))) k : ℕ) : ℚ) = 0 := by
          simp [wTotal]
        rw [h0] at hθ
        linarith
  | cons w rest ih =>
    intro cw k hnd hres htr hpres hθ
    have hnd1 : JsMap.KeysNodup (mergeWeights cw w) := nodup_mergeWeights cw w hnd
    have hw2 : wTotal (w :: rest) k = entW w k + wTotal rest k := by simp [wTotal]
    have hcw2 : (cursorStep o truthy tokens cw w).2
        = (postFilter o (mergeWeights cw w) tokens).foldl JsMap.del (mergeWeights cw w) := rfl
    have hnd2 : JsMap.KeysNodup (cursorStep o truthy tokens cw w).2 := by
      rw [hcw2]
      exact JsMap.nodup_foldl_del _ _ hnd1
    by_cases hem : k ∈ postFilter o (mergeWeights cw w) tokens
    · have hkb : k ∈ (cursorStep o truthy tokens cw w).1 := by
        unfold cursorStep
        simp only [List.mem_reverse, List.mem_filter]
        exact ⟨hem, htr⟩
      have hba : (cursorStep o truthy tokens cw w).1.isEmpty = false :=
        list_isEmpty_false_of_mem hkb
      unfold cursorAllBatches
      simp only [hba, Bool.false_eq_true, if_false]
      exact ⟨(cursorStep o truthy tokens cw w).1, List.mem_cons_self _ _, hkb⟩
    · have hres2 : ∀ e ∈ (cursorStep o truthy tokens cw w).2,
          ((e.2 : ℕ) : ℚ) < getLimit o.actuationLimitAuto tokens.length o.actuationLimit := by
        intro e hemem
        by_contra hcon
        push_neg at hcon
        have hin1 : e ∈ mergeWeights cw w := by
          rw [hcw2] at hemem
          exact JsMap.mem_foldl_del_sub _ _ e hemem
        have hkem : e.1 ∈ postFilter o (mergeWeights cw w) tokens := by
          rw [postFilter_mem]
          exact ⟨e, hin1, rfl, hcon⟩
        have hdel : JsMap.get (cursorStep o truthy tokens cw w).2 e.1 = none := by
          rw [hcw2]
          exact JsMap.get_foldl_del_of_mem _ _ e.1 hkem
        have hsome : JsMap.get (cursorStep o truthy tokens cw w).2 e.1 = some e.2 :=
          JsMap.get_of_mem_nodup _ e.1 e.2 hnd2 (by cases e; exact hemem)
        rw [hdel] at hsome
        exact Option.noConfusion hsome
      have hstep : ∃ b ∈ cursorAllBatches o truthy tokens rest
          (cursorStep o truthy tokens cw w).2, k ∈ b := by
        cases hc1 : JsMap.get (mergeWeights cw w) k with
        | none =>
          obtain ⟨hcwn, hkw⟩ := (get_mergeWeights_none_iff cw w k).mp hc1
          have hpres2 : ∃ w2 ∈ rest, k ∈ w2.map (·.1) := by
            rcases hpres with ⟨w2, hw21, hw22⟩ | hne
            · rcases List.mem_cons.mp hw21 with h | h
              · rw [h] at hw22
                exact absurd hw22 hkw
              · exact ⟨w2, h, hw22⟩
            · exact absurd hcwn hne
          have hgd0 : JsMap.getD cw k 0 = 0 := by
            unfold JsMap.getD
            rw [hcwn]
            rfl
          have hent0 : entW w k = 0 := entW_eq_zero_of_not_mem w k hkw
          have hgd2 : JsMap.getD (cursorStep o truthy tokens cw w).2 k 0 = 0 := by
            unfold JsMap.getD
            rw [hcw2, JsMap.get_foldl_del_none _ _ _ hc1]
            rfl
          apply ih _ k hnd2 hres2 htr (Or.inl hpres2)
          rw [hgd2]
          rw [hgd0, hw2, hent0] at hθ
          push_cast at hθ ⊢
          linarith
        | some c =>
          have hkeep : JsMap.get (cursorStep o truthy tokens cw w).2 k = some c := by
            rw [hcw2, JsMap.get_foldl_del_not_mem _ _ _ hem]
            exact hc1
          have hgd1 : JsMap.getD (mergeWeights cw w) k 0 = c := by
            unfold JsMap.getD
            rw [hc1]
            rfl
          have hgd2 : JsMap.getD (cursorStep o truthy tokens cw w).2 k 0 = c := by
            unfold JsMap.getD
            rw [hkeep]
            rfl
          have hsum := getD_mergeWeights cw w k
          rw [hgd1] at hsum
          apply ih _ k hnd2 hres2 htr (Or.inr (by rw [hkeep]; simp))
          rw [hgd2]
          rw [hw2] at hθ
          have hsq : ((c : ℕ) : ℚ)
              = ((JsMap.getD cw k 0 : ℕ) : ℚ) + ((entW w k : ℕ) : ℚ) := by
            exact_mod_cast hsum
          push_cast at hθ hsq ⊢
          linarith
      obtain ⟨b, hbm, hkb⟩ := hstep
      unfold cursorAllBatches
      by_cases hempty : (cursorStep o truthy tokens cw w).1.isEmpty
      · simp only [hempty, if_true]
        exact ⟨b, hbm, hkb⟩
      · simp only [hempty, Bool.false_eq_true, if_false]
        exact ⟨b, List.mem_cons_of_mem _ hbm, hkb⟩

/-- Every key of a `preFilter` result occurs in some posting list of the
shard. -/
theorem mem_keys_preFilterPure (sh : List (String × List K)) (tokens : List String)
    (k : K) (h : k ∈ (preFilterPure sh tokens).map (·.1)) :
    ∃ e ∈ sh, k ∈ e.2 := by
  have hinner : ∀ (ids : List K) (acc : List (K × Nat)),
      k ∈ (ids.foldl (fun acc id => JsMap.set acc id (JsMap.getD acc id 0 + 1)) acc).map (·.1) →
      k ∈ acc.map (·.1) ∨ k ∈ ids := by
    intro ids
    induction ids with
    | nil =>
      intro acc hk
      exact Or.inl hk
    | cons i is ih =>
      intro acc hk
      rw [List.foldl_cons] at hk
      rcases ih _ hk with hk2 | hk2
      · rcases (JsMap.mem_keys_set acc i k _).mp hk2 with h2 | h2
        · exact Or.inr (by rw [h2]; exact List.mem_cons_self _ _)
        · exact Or.inl h2
      · exact Or.inr (List.mem_cons_of_mem _ hk2)
  have haux : ∀ (ts : List String) (acc : List (K × Nat)),
      k ∈ (ts.foldl (fun acc token =>
          match JsMap.get sh token with
          | none => acc
          | some ids => ids.foldl (fun acc id => JsMap.set acc id (JsMap.getD acc id 0 + 1)) acc)
        acc).map (·.1) →
      k ∈ acc.map (·.1) ∨ ∃ e ∈ sh, k ∈ e.2 := by
    intro ts
    induction ts with
    | nil =>
      intro acc hk
      exact Or.inl hk
    | cons t ts2 ih =>
      intro acc hk
      rw [List.foldl_cons] at hk
      rcases ih _ hk with hk2 | hk2
      · cases hg : JsMap.get sh t with
        | none =>
          simp only [hg] at hk2
          exact Or.inl hk2
        | some ids =>
          simp only [hg] at hk2
          rcases hinner ids acc hk2 with h2 | h2
          · exact Or.inl h2
          · exact Or.inr ⟨(t, ids), JsMap.get_mem sh t ids hg, h2⟩
      · exact Or.inr hk2
  rcases haux tokens [] h with h2 | h2
  · simp at h2
  · exact h2

end NgramIndice

/-- C3 counterexample: key `0` reaches the threshold and is returned by
`findAll`, but `cursorAll` never emits it in any batch: the
`filter(r => \x7b combineWeights.delete(r); return r; \x7d)` step that builds each
batch keeps only JS-truthy keys, so the union of all batches misses every
falsy key and is not equal to the `findAll` key set. -/
theorem C3_counterexample :
    NgramIndice.findAll optsLimit1 [[("abc", [0])]] (.inl "abc") = [0]
  ∧ NgramIndice.cursorAllBatches optsLimit1 (fun k => decide (k ≠ 0))
      (NgramIndice.tokenizrMulti optsLimit1 (.inl "abc"))
      ([[("abc", [(0 : Int)])]].map
        (fun sh => NgramIndice.preFilterPure sh
          (NgramIndice.tokenizrMulti optsLimit1 (.inl "abc")))) []
    = [] := by
  constructor
  · decide
  · decide

/-- C3 as amended: over shards whose posting lists hold only JS-truthy keys,
a single `cursorAll` run and `findAll` agree as key sets: for every order in
which the shards complete (any permutation of the per-shard `preFilter`
results), a key appears in some batch of `cursorAll` iff it is in the
`findAll` result.  Without the truthiness restriction only the forward
inclusion holds (see the counterexample). -/
theorem C3_union_eq_findAll {K : Type} [DecidableEq K] (o : NgramIndice.NgOptions K)
    (truthy : K → Bool) (shards : List (List (String × List K)))
    (value : String ⊕ List String) (results : List (List (K × Nat)))
    (hperm : results.Perm (shards.map
        (fun sh => NgramIndice.preFilterPure sh (NgramIndice.tokenizrMulti o value))))
    (htruthy : ∀ sh ∈ shards, ∀ e ∈ sh, ∀ x ∈ e.2, truthy x = true) (k : K) :
    (∃ b ∈ NgramIndice.cursorAllBatches o truthy (NgramIndice.tokenizrMulti o value)
        results [], k ∈ b)
      ↔ k ∈ NgramIndice.findAll o shards value := by
  have hwt : NgramIndice.wTotal results k
      = NgramIndice.wTotal (shards.map
          (fun sh => NgramIndice.preFilterPure sh (NgramIndice.tokenizrMulti o value))) k := by
    unfold NgramIndice.wTotal
    exact List.Perm.sum_eq (hperm.map _)
  have hpresiff : (∃ w ∈ results, k ∈ w.map (·.1))
      ↔ ∃ w ∈ shards.map
          (fun sh => NgramIndice.preFilterPure sh (NgramIndice.tokenizrMulti o value)),
        k ∈ w.map (·.1) := by
    constructor
    · rintro ⟨w, hw, hkw⟩
      exact ⟨w, hperm.mem_iff.mp hw, hkw⟩
    · rintro ⟨w, hw, hkw⟩
      exact ⟨w, hperm.mem_iff.mpr hw, hkw⟩
  have h0 : ((JsMap.getD ([] : List (K × Nat)) k 0 : ℕ) : ℚ) = 0 := by
    simp [JsMap.getD]
  rw [NgramIndice.findAll_mem]
  constructor
  · intro hb
    obtain ⟨htr, hθ, hpres⟩ := NgramIndice.cursor_emitted_sound o truthy
        (NgramIndice.tokenizrMulti o value) results [] k (by simp [JsMap.KeysNodup]) hb
    refine ⟨?_, ?_⟩
    · rcases hpres with h | h
      · exact hpresiff.mp h
      · exact absurd rfl h
    · rw [← hwt]
      rw [h0] at hθ
      linarith
  · rintro ⟨hpres, hθ⟩
    obtain ⟨w, hw, hkmem⟩ := hpres
    obtain ⟨sh, hsh, hshw⟩ := List.mem_map.mp hw
    have htr : truthy k = true := by
      obtain ⟨e, he, hke⟩ := NgramIndice.mem_keys_preFilterPure sh
        (NgramIndice.tokenizrMulti o value) k (by rw [hshw]; exact hkmem)
      exact htruthy sh hsh e he k hke
    apply NgramIndice.cursor_emitted_complete o truthy (NgramIndice.tokenizrMulti o value)
        results [] k (by simp [JsMap.KeysNodup]) (by intro e he; simp at he) htr
        (Or.inl (hpresiff.mpr ⟨w, hw, hkmem⟩))
    rw [h0, hwt]
    linarith

/-- Witness for C3 at one shard holding key `1` for token `abc`, with the
shards completing in declaration order. -/
theorem C3_union_eq_findAll_witness :
    ((∃ b ∈ NgramIndice.cursorAllBatches optsLimit1 (fun k => decide (k ≠ 0))
        (NgramIndice.tokenizrMulti optsLimit1 (.inl "abc"))
        ([[("abc", [1])]].map
          (fun sh => NgramIndice.preFilterPure sh
            (NgramIndice.tokenizrMulti optsLimit1 (.inl "abc")))) [], (1 : Int) ∈ b)
      ↔ (1 : Int) ∈ NgramIndice.findAll optsLimit1 [[("abc", [1])]] (.inl "abc")) :=
  C3_union_eq_findAll optsLimit1 (fun k => decide (k ≠ 0)) [[("abc", [1])]]
    (.inl "abc") _ (List.Perm.refl _) (by decide) 1
